import Mathlib

/-!
Verification development for the MLCC repository (mlcc_core.py and the
attack scripts).  Python strings are modelled as `List Char`, Python dicts
as association-list lookup where the later binding wins, Python's `%` on
possibly negative ints as `Int.emod` (both yield the representative in
`[0, m)` for a positive modulus `m`), Python floats as exact rationals,
and fallible dict indexing as `Option`.  The ASCII fragment of
`str.upper`/`str.isalpha` is modelled; all data handled by the repository
is ASCII.
-/

namespace MLCC

/-! ### Character primitives (models of ord, chr, str.upper, str.isalpha) -/

/-- Model of Python `ord` (as an integer, since the cipher code subtracts and may go negative). -/
def pyOrd (c : Char) : Int := (c.toNat : Int)

/-- Model of Python `chr` for the non-negative code points produced by the cipher code. -/
def pyChr (n : Int) : Char := Char.ofNat n.toNat

/-- Model of Python `str.upper` on one character (ASCII fragment). -/
def pyUpper (c : Char) : Char :=
  if 97 ≤ c.toNat ∧ c.toNat ≤ 122 then Char.ofNat (c.toNat - 32) else c

/-- Model of Python `str.isalpha` on one character (ASCII fragment). -/
def pyIsAlpha (c : Char) : Bool :=
  (65 ≤ c.toNat && c.toNat ≤ 90) || (97 ≤ c.toNat && c.toNat ≤ 122)

/-- The uppercase letters, i.e. the property of being one of A..Z. -/
def isUpperAZ (c : Char) : Prop := 65 ≤ c.toNat ∧ c.toNat ≤ 90

instance (c : Char) : Decidable (isUpperAZ c) := by unfold isUpperAZ; infer_instance

/-- `clean`: uppercase then keep only letters.  This is
`''.join(filter(str.isalpha, text.upper()))` from `mlcc_core.encrypt` and the
identical cleaning helpers of the attack scripts. -/
def clean (s : List Char) : List Char :=
  (s.map pyUpper).filter pyIsAlpha

/-- Model of a Python dict built from a list of key/value pairs: the later
binding wins, as in a comprehension; lookup of a missing key is `none`
(a `KeyError` in Python). -/
def pyDict {α β : Type} [BEq α] (pairs : List (α × β)) : α → Option β :=
  fun a => List.lookup a pairs.reverse

/-- `standard_alphabet` from `MLCCipher.__init__` / `ALPHABET` of the attack scripts. -/
def standardAlphabet : List Char := "ABCDEFGHIJKLMNOPQRSTUVWXYZ".toList

/-- Translate a string character by character through a fallible mapping;
Python's `''.join(map[ch] for ch in text)` raises on the first missing key,
modelled as `none`. -/
def translateAll (f : Char → Option Char) : List Char → Option (List Char)
  | [] => some []
  | c :: cs =>
    match f c, translateAll f cs with
    | some x, some xs => some (x :: xs)
    | _, _ => none

/-! ### MLCCipher construction (mlcc_core.MLCCipher.__init__) -/

structure MLCCipher where
  substitution_key : List Char
  vigenere_key : List Char
  transposition_key : List Int
deriving DecidableEq

deriving instance DecidableEq for Except

/-- `MLCCipher.__init__`: validates the three keys (in source order) and, on
success, stores the uppercased substitution and Vigenere keys.  A raised
`ValueError` is modelled as `Except.error`; in that case no `MLCCipher`
value (hence no encrypt/decrypt capability) is produced.  Note the
distinctness check `len(set(key)) != 26` runs on the key as given, before
`upper()` is applied. -/
def mkMLCCipher (substitution_key vigenere_key : List Char) (transposition_key : List Int) :
    Except String MLCCipher :=
  if substitution_key.length ≠ 26 ∨ substitution_key.dedup.length ≠ 26 then
    Except.error ("Substitution key must be 26 unique characters")
  else if vigenere_key.length < 10 then
    Except.error ("Vigenere key must be at least 10 characters")
  else if transposition_key.length < 3 then
    Except.error ("Transposition key must have at least 3 elements")
  else
    Except.ok
      { substitution_key := substitution_key.map pyUpper
        vigenere_key := vigenere_key.map pyUpper
        transposition_key := transposition_key }

/-- `self.substitution_map = {standard_alphabet[i]: substitution_key[i]}` built by
zipping the alphabet with the (already uppercased) stored key. -/
def substitution_map (subKeyUpper : List Char) : Char → Option Char :=
  pyDict (standardAlphabet.zip subKeyUpper)

/-- `self.reverse_substitution_map = {substitution_key[i]: standard_alphabet[i]}`;
when the uppercased key has repeated characters the later binding wins, so
this dict can have fewer than 26 entries. -/
def reverse_substitution_map (subKeyUpper : List Char) : Char → Option Char :=
  pyDict (subKeyUpper.zip standardAlphabet)

/-! ### Modified Vigenere stage (mlcc_core lines 36-49 and 148-161) -/

/-- One character of the modified Vigenere encryption at absolute position `i`
with current `key_rotation` value `rot`. -/
def vig_enc_char (vigenere_key : List Char) (i rot : Nat) (c : Char) : Char :=
  let effective_key := vigenere_key.getD ((i + rot) % vigenere_key.length) 'A'
  let shift : Int := pyOrd effective_key - 65
  let modifier : Int := ((i % 5 : Nat) : Int) + 1
  pyChr ((pyOrd c - 65 + shift * modifier) % 26 + 65)

/-- One character of the modified Vigenere decryption (note the `+ 26` before
the modulus, as in the source). -/
def vig_dec_char (vigenere_key : List Char) (i rot : Nat) (c : Char) : Char :=
  let effective_key := vigenere_key.getD ((i + rot) % vigenere_key.length) 'A'
  let shift : Int := pyOrd effective_key - 65
  let modifier : Int := ((i % 5 : Nat) : Int) + 1
  pyChr ((pyOrd c - 65 - shift * modifier + 26) % 26 + 65)

/-- `key_rotation` update after processing the character at position `i`. -/
def next_rotation (vigenere_key : List Char) (i rot : Nat) : Nat :=
  if (i + 1) % 5 == 0 then (rot + 1) % vigenere_key.length else rot

/-- The Vigenere encryption loop, threading the position and `key_rotation`. -/
def vigenere_encrypt_from (vigenere_key : List Char) : List Char → Nat → Nat → List Char
  | [], _, _ => []
  | c :: cs, i, rot =>
    vig_enc_char vigenere_key i rot c ::
      vigenere_encrypt_from vigenere_key cs (i + 1) (next_rotation vigenere_key i rot)

def vigenere_encrypt (vigenere_key text : List Char) : List Char :=
  vigenere_encrypt_from vigenere_key text 0 0

/-- The Vigenere decryption loop (same position/rotation threading). -/
def vigenere_decrypt_from (vigenere_key : List Char) : List Char → Nat → Nat → List Char
  | [], _, _ => []
  | c :: cs, i, rot =>
    vig_dec_char vigenere_key i rot c ::
      vigenere_decrypt_from vigenere_key cs (i + 1) (next_rotation vigenere_key i rot)

def vigenere_decrypt (vigenere_key text : List Char) : List Char :=
  vigenere_decrypt_from vigenere_key text 0 0

/-- The value of `key_rotation` when the character at position `i` is about to
be processed: it starts at 0 and is bumped (mod key length) after every 5th
character. -/
def key_rotation_at (keylen : Nat) : Nat → Nat
  | 0 => 0
  | i + 1 =>
    if (i + 1) % 5 == 0 then (key_rotation_at keylen i + 1) % keylen
    else key_rotation_at keylen i

/-! ### Zigzag transposition stage (mlcc_core lines 51-78 and 95-146) -/

/-- A transposition grid; Python initialises every cell to the empty string
`''`, modelled as `none`. -/
abbrev Grid := List (List (Option Char))

def emptyGrid (rows cols : Nat) : Grid := List.replicate rows (List.replicate cols none)

/-- `grid[row][col] = c` (in-bounds in every reachable state). -/
def gridSet (g : Grid) (row col : Nat) (c : Char) : Grid :=
  g.set row ((g.getD row []).set col (some c))

/-- Read `grid[row][col]`. -/
def gridGet (g : Grid) (row col : Nat) : Option Char :=
  (g.getD row []).getD col none

/-- `math.ceil(len / cols)` (exact for the integer sizes involved). -/
def num_rows_for (len cols : Nat) : Nat := (len + cols - 1) / cols

/-- The column indices a row visits: `direction` starts at `1` and flips after
every row, so even rows go left to right and odd rows right to left. -/
def rowCols (cols row : Nat) : List Nat :=
  if row % 2 == 0 then List.range cols else (List.range cols).reverse

/-- One step of the encrypt fill loop: `if index < len(text): grid[row][col] =
text[index]; index += 1`. -/
def fillStep (text : List Char) (row : Nat) (s : Grid × Nat) (col : Nat) : Grid × Nat :=
  if s.2 < text.length then (gridSet s.1 row col (text.getD s.2 'A'), s.2 + 1) else s

/-- The zigzag grid fill of `MLCCipher.encrypt`. -/
def encrypt_fill (text : List Char) (cols rows : Nat) : Grid :=
  ((List.range rows).foldl
    (fun s row => (rowCols cols row).foldl (fillStep text row) s)
    (emptyGrid rows cols, 0)).1

/-- Stable insertion into a list sorted by `key`: an element inserted from the
left of the original order stops at the first position whose key is not
smaller, hence lands before later elements with an equal key. -/
def insertByKey (key : Nat → Int) (a : Nat) : List Nat → List Nat
  | [] => [a]
  | b :: bs => if key a ≤ key b then a :: b :: bs else b :: insertByKey key a bs

/-- Stable sort by key.  Python's `sorted` is a stable sort; any two stable
sorts agree extensionally, so this structural insertion sort is a faithful
model of `sorted(..., key=...)`. -/
def sortByKey (key : Nat → Int) : List Nat → List Nat
  | [] => []
  | a :: as => insertByKey key a (sortByKey key as)

/-- `column_order = sorted(range(num_columns), key=lambda i: transposition_key[i])`. -/
def column_order (transposition_key : List Int) : List Nat :=
  sortByKey (fun i => transposition_key.getD i 0) (List.range transposition_key.length)

/-- Read the filled cells of one column top to bottom (`if grid[row][col]:`
skips the empty-string cells). -/
def readColumn (g : Grid) (rows col : Nat) : List Char :=
  (List.range rows).filterMap (fun row => gridGet g row col)

/-- The transposition layer of `MLCCipher.encrypt`: zigzag-fill the grid, then
emit each column of `column_order` top to bottom. -/
def transposition_encrypt (transposition_key : List Int) (text : List Char) : List Char :=
  let num_columns := transposition_key.length
  let num_rows := num_rows_for text.length num_columns
  let grid := encrypt_fill text num_columns num_rows
  (column_order transposition_key).flatMap (fun col => readColumn grid num_rows col)

/-- The short-column rule of `MLCCipher.decrypt`: when there are empty cells,
the short columns are the last `num_empty_cells` columns if the last row
index is even, the first `num_empty_cells` ones if it is odd.  (Whenever
`0 < len`, `num_empty_cells < num_columns`, so `range(num_columns -
num_empty_cells, num_columns)` has exactly `num_empty_cells` members.) -/
def short_columns (num_columns num_rows len : Nat) : List Nat :=
  let num_empty_cells := num_rows * num_columns - len
  if 0 < num_empty_cells then
    if (num_rows - 1) % 2 == 0 then
      List.range' (num_columns - num_empty_cells) num_empty_cells
    else
      List.range num_empty_cells
  else []

/-- `col_lengths[col]`: short columns hold `num_rows - 1` characters, the
others `num_rows`. -/
def col_length (num_columns num_rows len col : Nat) : Nat :=
  if col ∈ short_columns num_columns num_rows len then num_rows - 1 else num_rows

/-- One step of the decrypt fill loop: `if index < L: grid[row][col] =
ciphertext[index]; index += 1`. -/
def decFillStep (cipher : List Char) (col : Nat) (s : Grid × Nat) (row : Nat) : Grid × Nat :=
  if s.2 < cipher.length then (gridSet s.1 row col (cipher.getD s.2 'A'), s.2 + 1) else s

/-- The decrypt-side grid reconstruction: walk `column_order`, consuming
`col_length` ciphertext characters into the rows of each original column. -/
def decrypt_fill (cipher : List Char) (transposition_key : List Int)
    (num_columns num_rows len : Nat) : Grid :=
  ((column_order transposition_key).foldl
    (fun s col =>
      (List.range (col_length num_columns num_rows len col)).foldl (decFillStep cipher col) s)
    (emptyGrid num_rows num_columns, 0)).1

/-- Read the reconstructed grid back row by row in alternating zigzag
direction, skipping empty cells. -/
def zigzag_read (g : Grid) (num_columns num_rows : Nat) : List Char :=
  (List.range num_rows).flatMap
    (fun row => (rowCols num_columns row).filterMap (fun col => gridGet g row col))

/-- The transposition layer of `MLCCipher.decrypt`. -/
def transposition_decrypt (transposition_key : List Int) (cipher : List Char) : List Char :=
  let num_columns := transposition_key.length
  let len := cipher.length
  let num_rows := num_rows_for len num_columns
  zigzag_read (decrypt_fill cipher transposition_key num_columns num_rows len)
    num_columns num_rows

/-! ### The full pipeline (MLCCipher.encrypt / MLCCipher.decrypt) -/

structure EncryptResult where
  ciphertext : List Char
  substituted_text : List Char
  vigenere_result : List Char
  column_order : List Nat
deriving DecidableEq

/-- `MLCCipher.encrypt`: clean, substitute, modified Vigenere, zigzag
transposition.  `none` models the `KeyError` raised when the substitution
dict is missing a cleaned character. -/
def MLCCipher.encrypt (m : MLCCipher) (plaintext : List Char) : Option EncryptResult :=
  let cleaned_text := clean plaintext
  match translateAll (substitution_map m.substitution_key) cleaned_text with
  | none => none
  | some substituted_text =>
    let vigenere_result := vigenere_encrypt m.vigenere_key substituted_text
    let ciphertext := transposition_encrypt m.transposition_key vigenere_result
    some
      { ciphertext := ciphertext
        substituted_text := substituted_text
        vigenere_result := vigenere_result
        column_order := column_order m.transposition_key }

/-- `MLCCipher.decrypt`: invert the transposition, the Vigenere stage and the
substitution.  `none` models the `KeyError` raised when
`reverse_substitution_map` is missing a character. -/
def MLCCipher.decrypt (m : MLCCipher) (ciphertext : List Char) : Option (List Char) :=
  let vigenere_result := transposition_decrypt m.transposition_key ciphertext
  let substituted_text := vigenere_decrypt m.vigenere_key vigenere_result
  translateAll (reverse_substitution_map m.substitution_key) substituted_text

/-! ### attacks/vigenere_cracker.py -/

/-- `ALPHABET_MAP = {c: i for i, c in enumerate(ALPHABET)}`. -/
def ALPHABET_MAP : Char → Option Nat :=
  pyDict ((standardAlphabet.enumFrom 0).map (fun p => (p.2, p.1)))

/-- `INV_ALPHABET_MAP[s]` for the shifts `0 ≤ s < 26` that actually occur. -/
def INV_ALPHABET_MAP (s : Nat) : Char := standardAlphabet.getD s 'A'

/-- `pos_to_key_index`: the closed form `(i + i // 5) % keylen`. -/
def pos_to_key_index (i keylen : Nat) : Nat := (i + i / 5) % keylen

/-- `modifier_for_pos`. -/
def modifier_for_pos (i : Nat) : Nat := i % 5 + 1

/-- `possible_shifts_for_pair`: all `s` in `0..25` with
`(sub + s * modifier) % 26 == vig`; empty when either character is not an
uppercase letter. -/
def possible_shifts_for_pair (sub_ch vig_ch : Char) (modifier : Nat) : List Nat :=
  match ALPHABET_MAP sub_ch, ALPHABET_MAP vig_ch with
  | some s_sub, some s_vig =>
    (List.range 26).filter (fun s => (s_sub + s * modifier) % 26 == s_vig)
  | _, _ => []

/-- The position loop of `derive_candidates_for_keylen` (`for i in range(n)`,
`fuel` counting the remaining iterations).  Python's candidate sets are
modelled as strictly ascending lists: they start as `set(range(26))` and are
only ever intersected, and the function's output applies `sorted(...)` to
them, so the ascending list is exactly the observable value; `&=` becomes an
order-preserving filter. -/
def deriveLoop (substituted vigenere_result : List Char) (keylen : Nat) :
    Nat → Nat → List (List Nat) → Option (List (List Nat))
  | _, 0, candidates => some candidates
  | i, fuel + 1, candidates =>
    let p := pos_to_key_index i keylen
    let m := modifier_for_pos i
    let poss := possible_shifts_for_pair (substituted.getD i 'A') (vigenere_result.getD i 'A') m
    if poss.isEmpty then none
    else
      let inter := (candidates.getD p []).filter (fun s => poss.contains s)
      if inter.isEmpty then none
      else deriveLoop substituted vigenere_result keylen (i + 1) fuel (candidates.set p inter)

/-- The combination-count loop: multiply `max(1, len(lst))` per position and
stop early once the cap is exceeded. -/
def totalCombLoop (max_combinations : Nat) : List (List Nat) → Nat → Nat
  | [], acc => acc
  | lst :: rest, acc =>
    let acc' := acc * max 1 lst.length
    if max_combinations < acc' then acc' else totalCombLoop max_combinations rest acc'

/-- `itertools.product(*lists)`: leftmost factor varies slowest. -/
def listProd {α : Type} : List (List α) → List (List α)
  | [] => [[]]
  | l :: ls => l.flatMap (fun x => (listProd ls).map (fun combo => x :: combo))

structure VigResult where
  keylen : Nat
  per_position_candidates : List (List Nat)
  enumerated_keys : Option (List (List Nat × List Char))
  estimated_combinations : Nat
deriving DecidableEq

/-- `derive_candidates_for_keylen` (lines 75-121): run the position loop, then
either enumerate the full Cartesian product of the per-position candidates or,
past the cap, return only the per-position sets. -/
def derive_candidates_for_keylen (substituted vigenere_result : List Char)
    (keylen max_combinations : Nat) : Option VigResult :=
  match deriveLoop substituted vigenere_result keylen 0 substituted.length
      (List.replicate keylen (List.range 26)) with
  | none => none
  | some candidates =>
    let candidate_lists := candidates
    let total_comb := totalCombLoop max_combinations candidate_lists 1
    if total_comb = 0 then none
    else if total_comb ≤ max_combinations then
      some
        { keylen := keylen
          per_position_candidates := candidate_lists
          enumerated_keys := some ((listProd candidate_lists).map
            (fun combo => (combo, combo.map INV_ALPHABET_MAP)))
          estimated_combinations := total_comb }
    else
      some
        { keylen := keylen
          per_position_candidates := candidate_lists
          enumerated_keys := none
          estimated_combinations := total_comb }

/-- `solve_by_trying_keylens`: collect the feasible lengths in
`range(min_len, max_len + 1)`. -/
def solve_by_trying_keylens (substituted vigenere_result : List Char)
    (min_len max_len max_enum : Nat) : List VigResult :=
  (List.range' min_len (max_len + 1 - min_len)).filterMap
    (fun L => derive_candidates_for_keylen substituted vigenere_result L max_enum)

/-- The aligned-pair flow of `vigenere_cracker.main` after input loading:
clean both strings, reject a length mismatch or empty input with an error
before any per-length recovery runs (`sys.exit(2)` modelled as
`Except.error`). -/
def vigenere_cracker_main (sub_raw vig_raw : List Char)
    (min_keylen max_keylen max_enumerate : Nat) : Except String (List VigResult) :=
  let substituted := (sub_raw.map pyUpper).filter pyIsAlpha
  let vigenere_result := (vig_raw.map pyUpper).filter pyIsAlpha
  if substituted.length ≠ vigenere_result.length then
    Except.error ("Length mismatch after cleaning or alignment")
  else if substituted.length = 0 then
    Except.error ("No alphabetic content found after cleaning")
  else
    Except.ok (solve_by_trying_keylens substituted vigenere_result min_keylen max_keylen
      max_enumerate)

/-! ### attacks/transposition_bruteforce.py -/

/-- `columnar_decrypt` (lines 39-64): standard columnar reconstruction with
`full_cols = len % n_cols` long columns, filling columns in ciphertext order
and reading rows strictly left to right. -/
def columnar_decrypt (cipher : List Char) (key_order : List Nat) : List Char :=
  let n_cols := key_order.length
  let n_rows := num_rows_for cipher.length n_cols
  let full_cols := cipher.length % n_cols
  let col_lengths := (List.range n_cols).map (fun i => if i < full_cols then n_rows else n_rows - 1)
  let cols := ((List.range n_cols).foldl
    (fun (s : List (List Char) × Nat) pos =>
      let col_len := col_lengths.getD (key_order.indexOf pos) 0
      (s.1 ++ [(cipher.drop s.2).take col_len], s.2 + col_len))
    ([], 0)).1
  (List.range n_rows).flatMap
    (fun r => (List.range n_cols).filterMap (fun c => (cols.getD c [])[r]?))

def COMMON_WORDS_T : List (List Char) :=
  ["THE".toList, "AND".toList, "ING".toList, "ION".toList, "ENT".toList, "HER".toList,
   "FOR".toList, "THA".toList, "NTH".toList, "HES".toList, "HIS".toList, "ERE".toList,
   "TIO".toList, "VER".toList, "ALL".toList, "WAS".toList, "YOU".toList]

def ETAOIN : List Char := "ETAOINSHRDLU".toList

/-- Does `w` match at the head of `s`? -/
def leadMatch : List Char → List Char → Bool
  | [], _ => true
  | _ :: _, [] => false
  | a :: as, b :: bs => a == b && leadMatch as bs

/-- Python `str.count` (non-overlapping occurrences, scanning left to right),
written with a structural fuel argument: each scan step shortens the string,
so any fuel at least the string length computes the Python value. -/
def pyCountF (w : List Char) : Nat → List Char → Nat
  | _, [] =>
    match w with
    | [] => 1
    | _ :: _ => 0
  | 0, _ :: _ => 0
  | fuel + 1, sh :: st =>
    match w with
    | [] => (sh :: st).length + 1
    | wh :: wt =>
      if leadMatch (wh :: wt) (sh :: st) then
        1 + pyCountF (wh :: wt) fuel ((sh :: st).drop (wh :: wt).length)
      else pyCountF (wh :: wt) fuel st

def pyCount (w s : List Char) : Nat := pyCountF w s.length s

/-- `score_text` of transposition_bruteforce (floats idealised as rationals;
`0.2` is read as `1/5`). -/
def score_text_transposition (text : List Char) : ℚ :=
  let up := text.map pyUpper
  let wordScore : ℚ := (COMMON_WORDS_T.map (fun w => ((pyCount w up : ℚ) * 4))).sum
  let freqScore : ℚ := ((up.countP (fun ch => ETAOIN.contains ch) : ℚ)) * (1 / 5)
  (wordScore + freqScore) / ((max 1 text.length : Nat) : ℚ)

/-- The stream of outcomes of an (unseeded) `random.Random` instance: the
`t`-th call of `shuffle` / `sample(range(n), 2)` / `random()` returns the
recorded outcome.  `hillclimb_transposition` constructs its generator as
`random.Random(rng_seed)` with `rng_seed` defaulting to `None`, i.e. from
ambient OS entropy, so the stream is an input of the model. -/
structure Rng where
  shuffleRes : Nat → List Nat → List Nat
  sampleRes : Nat → Nat × Nat
  randRes : Nat → ℚ

/-- `random_key`: `key = list(range(n_cols)); rng.shuffle(key)`. -/
def random_key (rng : Rng) (t : Nat) (n_cols : Nat) : List Nat :=
  rng.shuffleRes t (List.range n_cols)

/-- `new_key[a], new_key[b] = new_key[b], new_key[a]` on a copy. -/
def swapAt (l : List Nat) (a b : Nat) : List Nat :=
  (l.set a (l.getD b 0)).set b (l.getD a 0)

structure HillState where
  current_key : List Nat
  current_plain : List Char
  current_score : ℚ
  best_key : Option (List Nat)
  best_plain : List Char
  best_score : ℚ
  tSample : Nat
  tRand : Nat

/-- One iteration of `hillclimb_transposition`'s inner loop.  The acceptance
test is `new_score > current_score or math.exp((new_score - current_score) /
max(1e-6, 1 - i/iterations)) > rng.random()`; the `or` short-circuits, so
`random()` is only drawn when the first disjunct fails.  `rexp` is the
(float) exponential, kept as a parameter of the model. -/
def hillclimbIter (rexp : ℚ → ℚ) (rng : Rng) (cipher : List Char) (iterations : Nat)
    (st : HillState) (i : Nat) : HillState :=
  let ab := rng.sampleRes st.tSample
  let new_key := swapAt st.current_key ab.1 ab.2
  let new_plain := columnar_decrypt cipher new_key
  let new_score := score_text_transposition new_plain
  let acceptres : Bool × Nat :=
    if st.current_score < new_score then (true, st.tRand)
    else
      (decide (rng.randRes st.tRand <
        rexp ((new_score - st.current_score) /
          max (1 / 1000000) (1 - (i : ℚ) / (iterations : ℚ)))), st.tRand + 1)
  let st1 :=
    if acceptres.1 then
      { st with
        current_key := new_key
        current_plain := new_plain
        current_score := new_score
        tSample := st.tSample + 1
        tRand := acceptres.2 }
    else { st with tSample := st.tSample + 1, tRand := acceptres.2 }
  if st1.best_score < st1.current_score then
    { st1 with
      best_key := some st1.current_key
      best_plain := st1.current_plain
      best_score := st1.current_score }
  else st1

structure SearchAcc where
  best_key : Option (List Nat)
  best_plain : List Char
  best_score : ℚ
  tShuffle : Nat
  tSample : Nat
  tRand : Nat

/-- One restart of `hillclimb_transposition`: draw a fresh random key order and
run the inner loop; the best candidate persists across restarts. -/
def hillclimbRun (rexp : ℚ → ℚ) (rng : Rng) (cipher : List Char)
    (keylen iterations : Nat) (acc : SearchAcc) : SearchAcc :=
  let current_key := random_key rng acc.tShuffle keylen
  let current_plain := columnar_decrypt cipher current_key
  let current_score := score_text_transposition current_plain
  let st0 : HillState :=
    ⟨current_key, current_plain, current_score, acc.best_key, acc.best_plain, acc.best_score,
      acc.tSample, acc.tRand⟩
  let stF := (List.range iterations).foldl (hillclimbIter rexp rng cipher iterations) st0
  ⟨stF.best_key, stF.best_plain, stF.best_score, acc.tShuffle + 1, stF.tSample, stF.tRand⟩

/-- `hillclimb_transposition` (lines 80-110): note that the best candidate is
only updated inside the iteration loop, and that the generator is
`random.Random(rng_seed)` with the caller `brute_force_lengths` never passing
`rng_seed` (so it is OS-seeded). -/
def hillclimb_transposition (rexp : ℚ → ℚ) (rng : Rng) (cipher : List Char)
    (keylen iterations restarts : Nat) : Option (List Nat) × List Char × ℚ :=
  let accF := (List.range restarts).foldl
    (fun acc _ => hillclimbRun rexp rng cipher keylen iterations acc)
    ⟨none, [], -(1000000000 : ℚ), 0, 0, 0⟩
  (accF.best_key, accF.best_plain, accF.best_score)

/-! ### Derived forms used by the verification (still definitions) -/

/-- A grid given by a cell function (rows and columns of the stated sizes). -/
def mapGrid (f : Nat → Nat → Option Char) (rows cols : Nat) : Grid :=
  (List.range rows).map (fun row => (List.range cols).map (f row))

/-- The within-row offset the zigzag fill uses at `(row, col)`. -/
def rowOff (cols row col : Nat) : Nat :=
  if row % 2 == 0 then col else cols - 1 - col

/-- The text index stored at grid cell `(row, col)` by the zigzag fill. -/
def gridIdx (cols row col : Nat) : Nat := row * cols + rowOff cols row col

/-- The characters of one grid column in the ciphertext, as a closed form. -/
def colChars (text : List Char) (cols rows len col : Nat) : List Char :=
  (List.range (col_length cols rows len col)).map
    (fun row => text.getD (gridIdx cols row col) 'A')

/-- The modified Vigenere encryption of the character at absolute position `i`,
with the effective key index in the closed form `(i + i / 5) % keylen` used by
the key recoverer. -/
def vig_enc_char_at (vigenere_key : List Char) (i : Nat) (c : Char) : Char :=
  let effective_key := vigenere_key.getD (pos_to_key_index i vigenere_key.length) 'A'
  let shift : Int := pyOrd effective_key - 65
  let modifier : Int := ((modifier_for_pos i : Nat) : Int)
  pyChr ((pyOrd c - 65 + shift * modifier) % 26 + 65)

/-- `brute_force_lengths` (lines 112-124): scan the key lengths, calling
`hillclimb_transposition(cleaned, L, iterations, restarts)` WITHOUT a seed —
each call builds a fresh `random.Random(None)`, modelled by the per-length
oracle family `rngFam`. -/
def brute_force_lengths (rexp : ℚ → ℚ) (rngFam : Nat → Rng) (cipher : List Char)
    (min_len max_len iterations restarts : Nat) :
    Option Nat × Option (List Nat) × List Char × ℚ :=
  let cleaned := clean cipher
  (List.range' min_len (max_len + 1 - min_len)).foldl
    (fun acc L =>
      let kps := hillclimb_transposition rexp (rngFam L) cleaned L iterations restarts
      if acc.2.2.2 < kps.2.2 then (some L, kps.1, kps.2.1, kps.2.2) else acc)
    (none, none, [], -(1000000000 : ℚ))

/-- One possible outcome stream of the OS-seeded generator built by
`hillclimb_transposition` when `brute_force_lengths` calls it without a seed:
`shuffle` leaves the list unchanged and `sample(range(n), 2)` returns
`(1, 2)`. -/
def rngA : Rng := ⟨fun _ l => l, fun _ => (1, 2), fun _ => 0⟩

/-- A second possible outcome stream: `shuffle` leaves the list unchanged and
`sample(range(n), 2)` returns `(0, 2)`. -/
def rngB : Rng := ⟨fun _ l => l, fun _ => (0, 2), fun _ => 0⟩

/-! ## Lemmas: character primitives -/

theorem toNat_char_ofNat (n : Nat) (h : n < 55296) : (Char.ofNat n).toNat = n := by
  simp only [Char.ofNat, Nat.isValidChar]
  split
  · simp [Char.ofNatAux, Char.toNat, UInt32.toNat, BitVec.toNat_ofNatLt]
  · omega

theorem pyOrd_pyChr (n : Int) (h0 : 0 ≤ n) (h : n < 55296) : pyOrd (pyChr n) = n := by
  have hlt : n.toNat < 55296 := by omega
  simp only [pyOrd, pyChr, toNat_char_ofNat n.toNat hlt]
  omega

theorem pyChr_pyOrd (c : Char) : pyChr (pyOrd c) = c := by
  simp [pyChr, pyOrd, Char.ofNat_toNat]

theorem pyUpper_upperAZ (a : Char) (ha : pyIsAlpha a = true) : isUpperAZ (pyUpper a) := by
  unfold pyUpper isUpperAZ
  simp only [pyIsAlpha, Bool.or_eq_true, Bool.and_eq_true, decide_eq_true_eq] at ha
  by_cases h : 97 ≤ a.toNat ∧ a.toNat ≤ 122
  · rw [if_pos h, toNat_char_ofNat _ (by omega)]
    omega
  · rw [if_neg h]
    omega

theorem clean_mem (s : List Char) : ∀ c ∈ clean s, isUpperAZ c := by
  intro c hc
  unfold clean at hc
  rw [List.mem_filter] at hc
  obtain ⟨hmem, halpha⟩ := hc
  rw [List.mem_map] at hmem
  obtain ⟨a, _, rfl⟩ := hmem
  by_cases h : 97 ≤ a.toNat ∧ a.toNat ≤ 122
  · unfold pyUpper isUpperAZ
    rw [if_pos h, toNat_char_ofNat _ (by omega)]
    omega
  · unfold pyUpper at halpha ⊢
    rw [if_neg h] at halpha ⊢
    simp only [pyIsAlpha, Bool.or_eq_true, Bool.and_eq_true, decide_eq_true_eq] at halpha
    unfold isUpperAZ
    omega

/-! ## Lemmas: list utilities -/

theorem getElem?_map_range {α : Type} (f : Nat → α) (n i : Nat) :
    ((List.range n).map f)[i]? = if i < n then some (f i) else none := by
  rw [List.getElem?_map]
  by_cases h : i < n
  · rw [List.getElem?_range h, if_pos h]
    rfl
  · rw [if_neg h, List.getElem?_eq_none (by simpa using Nat.le_of_not_lt h)]
    rfl

theorem set_map_range {α : Type} (f : Nat → α) (n c : Nat) (v : α) :
    ((List.range n).map f).set c v =
      (List.range n).map (fun x => if x = c then v else f x) := by
  apply List.ext_getElem?
  intro i
  simp only [List.getElem?_set, List.length_map, List.length_range, getElem?_map_range]
  by_cases hc : c = i
  · subst hc
    by_cases hi : c < n <;> simp [hi]
  · rw [if_neg hc]
    by_cases hi : i < n
    · rw [if_pos hi, if_pos hi]
      simp only [Option.some.injEq]
      rw [if_neg (fun h => hc h.symm)]
    · rw [if_neg hi, if_neg hi]

theorem sum_map_const {α : Type} (l : List α) (k : Nat) :
    (l.map (fun _ => k)).sum = l.length * k := by
  induction l with
  | nil => simp
  | cons a t ih => simp [ih, Nat.succ_mul, Nat.add_comm]

theorem mem_range1 {s n m : Nat} : m ∈ List.range' s n ↔ s ≤ m ∧ m < s + n := by
  rw [List.mem_range']
  constructor
  · rintro ⟨i, hi, rfl⟩
    omega
  · intro h
    exact ⟨m - s, by omega, by omega⟩

theorem filterMap_range_truncate {α : Type} (h : Nat → Option α) (n k : Nat) (hk : k ≤ n)
    (hnone : ∀ r, k ≤ r → r < n → h r = none) :
    (List.range n).filterMap h = (List.range k).filterMap h := by
  have hsplit : List.range n = List.range k ++ List.range' k (n - k) := by
    rw [List.range_eq_range' n, List.range_eq_range' k]
    have happ := List.range'_append 0 k (n - k) 1
    simp only [Nat.one_mul, Nat.zero_add] at happ
    have h2 : n - k + k = n := by omega
    rw [h2] at happ
    exact happ.symm
  rw [hsplit, List.filterMap_append]
  have : (List.range' k (n - k)).filterMap h = [] := by
    rw [List.filterMap_eq_nil_iff]
    intro a ha
    rw [mem_range1] at ha
    exact hnone a (by omega) (by omega)
  rw [this, List.append_nil]

theorem filterMap_range_map {α : Type} (h : Nat → Option α) (g : Nat → α) (k : Nat)
    (hsome : ∀ r < k, h r = some (g r)) :
    (List.range k).filterMap h = (List.range k).map g := by
  induction k with
  | zero => simp
  | succ m ih =>
    rw [List.range_succ, List.filterMap_append, List.map_append]
    rw [ih (fun r hr => hsome r (by omega))]
    simp [hsome m (by omega)]

theorem filterMap_range_chunk (text : List Char) (n s : Nat) :
    (List.range n).filterMap (fun j => text[s + j]?) = (text.drop s).take n := by
  induction n generalizing s with
  | zero => simp
  | succ m ih =>
    rw [List.range_succ_eq_map, List.filterMap_cons]
    by_cases hs : s < text.length
    · have hdrop : text.drop s = text[s] :: text.drop (s + 1) :=
        List.drop_eq_getElem_cons hs
      have hhead : text[s + 0]? = some text[s] := by
        simp [List.getElem?_eq_getElem, hs]
      rw [hhead]
      have : List.filterMap (fun j => text[s + j]?) ((List.range m).map (fun i => i + 1)) =
          List.filterMap (fun j => text[(s + 1) + j]?) (List.range m) := by
        rw [List.filterMap_map]
        apply List.filterMap_congr
        intro x _
        simp only [Function.comp]
        congr 1
        omega
      rw [this, ih, hdrop]
      rfl
    · have hnone : text[s + 0]? = none := by
        rw [List.getElem?_eq_none]
        omega
      rw [hnone]
      have hdrop : text.drop s = ([] : List Char) := List.drop_eq_nil_of_le (by omega)
      have hdrop2 : text.drop (s + 1) = ([] : List Char) := List.drop_eq_nil_of_le (by omega)
      have : List.filterMap (fun j => text[s + j]?) ((List.range m).map (fun i => i + 1)) =
          List.filterMap (fun j => text[(s + 1) + j]?) (List.range m) := by
        rw [List.filterMap_map]
        apply List.filterMap_congr
        intro x _
        simp only [Function.comp]
        congr 1
        omega
      rw [this, ih, hdrop2, hdrop]
      simp

/-! ## Lemmas: pyDict over zipped lists -/

theorem lookup_eq_none_of_keys {β : Type} (k : Char) (ps : List (Char × β))
    (h : ∀ p ∈ ps, p.1 ≠ k) : List.lookup k ps = none := by
  induction ps with
  | nil => rfl
  | cons a t ih =>
    have hk : (k == a.1) = false := by
      have := h a (by simp)
      simp [BEq.comm]
      exact fun hh => (this hh.symm)
    simp only [List.lookup, hk]
    exact ih (fun p hp => h p (by simp [hp]))

theorem pyDict_zip {β : Type} :
    ∀ (l₁ : List Char) (l₂ : List β) (i : Nat), l₁.Nodup → i < l₁.length → i < l₂.length →
      ∀ (d₁ : Char) (d₂ : β), pyDict (l₁.zip l₂) (l₁.getD i d₁) = some (l₂.getD i d₂)
  | [], _, i, _, h1, _, _, _ => by simp at h1
  | _ :: _, [], i, _, _, h2, _, _ => by simp at h2
  | a :: t₁, b :: t₂, 0, hn, h1, h2, d₁, d₂ => by
    rw [List.nodup_cons] at hn
    unfold pyDict
    simp only [List.zip_cons_cons, List.reverse_cons]
    rw [List.lookup_append]
    have hnone : List.lookup (List.getD (a :: t₁) 0 d₁) (t₁.zip t₂).reverse = none := by
      apply lookup_eq_none_of_keys
      intro p hp
      rw [List.mem_reverse] at hp
      have := (List.of_mem_zip hp).1
      simp only [List.getD_cons_zero]
      intro hEq
      exact hn.1 (hEq ▸ this)
    rw [hnone]
    simp [List.lookup]
  | a :: t₁, b :: t₂, j + 1, hn, h1, h2, d₁, d₂ => by
    rw [List.nodup_cons] at hn
    unfold pyDict
    simp only [List.zip_cons_cons, List.reverse_cons]
    rw [List.lookup_append]
    simp only [List.getD_cons_succ]
    have := pyDict_zip t₁ t₂ j hn.2 (by simpa using h1) (by simpa using h2) d₁ d₂
    unfold pyDict at this
    rw [this]
    rfl

/-! ## Lemmas: the standard alphabet and the substitution maps -/

theorem std_nodup : standardAlphabet.Nodup := by decide

theorem std_length : standardAlphabet.length = 26 := by decide

theorem std_getD_all : ∀ i, i < 26 → standardAlphabet.getD i 'A' = Char.ofNat (65 + i) := by
  decide

theorem upperAZ_toNat_bounds (c : Char) (h : isUpperAZ c) : 65 ≤ c.toNat ∧ c.toNat ≤ 90 := h

theorem upperAZ_repr (c : Char) (h : isUpperAZ c) :
    c = standardAlphabet.getD (c.toNat - 65) 'A' := by
  rw [std_getD_all _ (by unfold isUpperAZ at h; omega)]
  have : 65 + (c.toNat - 65) = c.toNat := by unfold isUpperAZ at h; omega
  rw [this, Char.ofNat_toNat]

theorem substitution_map_eq (ukey : List Char) (hlen : ukey.length = 26) (c : Char)
    (hc : isUpperAZ c) :
    substitution_map ukey c = some (ukey.getD (c.toNat - 65) 'A') := by
  have hb : c.toNat - 65 < 26 := by unfold isUpperAZ at hc; omega
  conv_lhs => rw [upperAZ_repr c hc]
  exact pyDict_zip standardAlphabet ukey (c.toNat - 65) std_nodup
    (by rw [std_length]; exact hb) (by rw [hlen]; exact hb) 'A' 'A'

theorem reverse_substitution_map_eq (ukey : List Char) (hlen : ukey.length = 26)
    (hnd : ukey.Nodup) (i : Nat) (h : i < 26) :
    reverse_substitution_map ukey (ukey.getD i 'A') = some (standardAlphabet.getD i 'A') :=
  pyDict_zip ukey standardAlphabet i hnd (by rw [hlen]; exact h)
    (by rw [std_length]; exact h) 'A' 'A'

theorem translateAll_eq_map (f : Char → Option Char) (g : Char → Char) (l : List Char)
    (h : ∀ c ∈ l, f c = some (g c)) : translateAll f l = some (l.map g) := by
  induction l with
  | nil => rfl
  | cons c t ih =>
    unfold translateAll
    rw [h c (by simp), ih (fun x hx => h x (by simp [hx]))]
    rfl

/-! ## Lemmas: the modified Vigenere stage -/

theorem key_rotation_closed (keylen : Nat) (i : Nat) :
    key_rotation_at keylen i = (i / 5) % keylen := by
  induction i with
  | zero => simp [key_rotation_at]
  | succ n ih =>
    unfold key_rotation_at
    by_cases h : (n + 1) % 5 = 0
    · have hdiv : (n + 1) / 5 = n / 5 + 1 := by omega
      simp only [h, beq_self_eq_true, if_true, ih, hdiv]
      rw [Nat.mod_add_mod]
    · have hdiv : (n + 1) / 5 = n / 5 := by omega
      have hb : ((n + 1) % 5 == 0) = false := by simpa using h
      simp only [hb, Bool.false_eq_true, if_false, ih, hdiv]

theorem effective_index_closed (keylen : Nat) (i : Nat) :
    (i + key_rotation_at keylen i) % keylen = pos_to_key_index i keylen := by
  rw [key_rotation_closed keylen i]
  unfold pos_to_key_index
  conv_lhs => rw [Nat.add_mod]
  conv_rhs => rw [Nat.add_mod]
  rw [Nat.mod_mod_of_dvd _ (dvd_refl _)]

theorem vig_dec_enc_char (vigenere_key : List Char) (i rot : Nat) (c : Char)
    (hc : isUpperAZ c) :
    vig_dec_char vigenere_key i rot (vig_enc_char vigenere_key i rot c) = c := by
  have hcb := upperAZ_toNat_bounds c hc
  simp only [vig_enc_char, vig_dec_char]
  generalize (pyOrd (vigenere_key.getD ((i + rot) % vigenere_key.length) 'A') - 65) *
    (((i % 5 : Nat) : Int) + 1) = t
  have hx0 : 0 ≤ pyOrd c - 65 ∧ pyOrd c - 65 < 26 := by
    simp only [pyOrd]
    omega
  have he : 0 ≤ (pyOrd c - 65 + t) % 26 ∧ (pyOrd c - 65 + t) % 26 < 26 := by omega
  rw [pyOrd_pyChr _ (by omega) (by omega)]
  have harith : ((pyOrd c - 65 + t) % 26 + 65 - 65 - t + 26) % 26 + 65 = pyOrd c := by
    omega
  rw [harith, pyChr_pyOrd]

theorem vig_roundtrip_from (vigenere_key text : List Char)
    (h : ∀ c ∈ text, isUpperAZ c) :
    ∀ i rot, vigenere_decrypt_from vigenere_key
      (vigenere_encrypt_from vigenere_key text i rot) i rot = text := by
  induction text with
  | nil => intro i rot; rfl
  | cons c t ih =>
    intro i rot
    unfold vigenere_encrypt_from vigenere_decrypt_from
    rw [vig_dec_enc_char vigenere_key i rot c (h c (by simp))]
    rw [ih (fun x hx => h x (by simp [hx]))]

theorem vig_roundtrip (vigenere_key text : List Char) (h : ∀ c ∈ text, isUpperAZ c) :
    vigenere_decrypt vigenere_key (vigenere_encrypt vigenere_key text) = text :=
  vig_roundtrip_from vigenere_key text h 0 0

theorem vig_encrypt_from_closed (vigenere_key : List Char) (text : List Char) :
    ∀ i, vigenere_encrypt_from vigenere_key text i
        (key_rotation_at vigenere_key.length i) =
      (text.enumFrom i).map (fun p => vig_enc_char_at vigenere_key p.1 p.2) := by
  induction text with
  | nil => intro i; rfl
  | cons c t ih =>
    intro i
    rw [List.enumFrom_cons, List.map_cons]
    unfold vigenere_encrypt_from
    have hrot : next_rotation vigenere_key i (key_rotation_at vigenere_key.length i) =
        key_rotation_at vigenere_key.length (i + 1) := by
      conv_rhs => rw [key_rotation_at]
      rfl
    rw [hrot, ih (i + 1)]
    have hchar : vig_enc_char vigenere_key i (key_rotation_at vigenere_key.length i) c =
        vig_enc_char_at vigenere_key i c := by
      unfold vig_enc_char vig_enc_char_at
      rw [effective_index_closed vigenere_key.length i]
      rfl
    rw [hchar]

theorem vig_encrypt_closed (vigenere_key : List Char) (text : List Char) :
    vigenere_encrypt vigenere_key text =
      (text.enumFrom 0).map (fun p => vig_enc_char_at vigenere_key p.1 p.2) := by
  have := vig_encrypt_from_closed vigenere_key text 0
  simpa [vigenere_encrypt, key_rotation_at] using this

theorem vig_encrypt_getElem (vigenere_key : List Char)
    (text : List Char) (i : Nat) (hi : i < text.length) :
    (vigenere_encrypt vigenere_key text)[i]? =
      some (vig_enc_char_at vigenere_key i (text.getD i 'A')) := by
  rw [vig_encrypt_closed vigenere_key text, List.getElem?_map, List.getElem?_enumFrom]
  rw [List.getElem?_eq_getElem hi]
  simp [List.getD_eq_getElem?_getD, List.getElem?_eq_getElem hi]

/-! ## Lemmas: grid infrastructure -/

theorem getD_map_range {α : Type} (F : Nat → α) (n r : Nat) (d : α) (h : r < n) :
    ((List.range n).map F).getD r d = F r := by
  rw [List.getD_eq_getElem?_getD, getElem?_map_range, if_pos h]
  rfl

theorem emptyGrid_eq (rows cols : Nat) :
    emptyGrid rows cols = mapGrid (fun _ _ => none) rows cols := by
  unfold emptyGrid mapGrid
  apply List.ext_getElem?
  intro i
  rw [getElem?_map_range, List.getElem?_replicate]
  by_cases h : i < rows
  · rw [if_pos h, if_pos h]
    congr 1
    apply List.ext_getElem?
    intro j
    rw [getElem?_map_range, List.getElem?_replicate]
  · rw [if_neg h, if_neg h]

theorem mapGrid_get (f : Nat → Nat → Option Char) (rows cols r c : Nat) :
    gridGet (mapGrid f rows cols) r c = if r < rows ∧ c < cols then f r c else none := by
  unfold gridGet mapGrid
  by_cases hr : r < rows
  · rw [getD_map_range _ _ _ _ hr]
    by_cases hc : c < cols
    · rw [getD_map_range _ _ _ _ hc, if_pos ⟨hr, hc⟩]
    · rw [if_neg (fun h => hc h.2)]
      rw [List.getD_eq_getElem?_getD, getElem?_map_range, if_neg hc]
      rfl
  · rw [if_neg (fun h => hr h.1)]
    have hrow : (List.map (fun row => List.map (f row) (List.range cols))
        (List.range rows)).getD r [] = [] := by
      rw [List.getD_eq_getElem?_getD (List.map (fun row => List.map (f row) (List.range cols))
        (List.range rows)) r [], getElem?_map_range, if_neg hr]
      rfl
    rw [hrow]
    rfl

theorem mapGrid_congr (f g : Nat → Nat → Option Char) (rows cols : Nat)
    (h : ∀ r < rows, ∀ c < cols, f r c = g r c) :
    mapGrid f rows cols = mapGrid g rows cols := by
  unfold mapGrid
  apply List.map_congr_left
  intro r hr
  rw [List.mem_range] at hr
  apply List.map_congr_left
  intro c hc
  rw [List.mem_range] at hc
  exact h r hr c hc

theorem mapGrid_set (f : Nat → Nat → Option Char) (rows cols r c : Nat) (v : Char)
    (hr : r < rows) (hc : c < cols) :
    gridSet (mapGrid f rows cols) r c v =
      mapGrid (fun r' c' => if r' = r ∧ c' = c then some v else f r' c') rows cols := by
  unfold gridSet mapGrid
  rw [getD_map_range _ _ _ _ hr, set_map_range, set_map_range]
  apply List.map_congr_left
  intro x hx
  rw [List.mem_range] at hx
  beta_reduce
  by_cases hxr : x = r
  · subst hxr
    rw [if_pos rfl]
    apply List.map_congr_left
    intro y hy
    beta_reduce
    by_cases hyc : y = c
    · subst hyc
      rw [if_pos rfl, if_pos ⟨rfl, rfl⟩]
    · rw [if_neg hyc, if_neg (fun h => hyc h.2)]
  · rw [if_neg hxr]
    apply List.map_congr_left
    intro y hy
    beta_reduce
    rw [if_neg (fun h => hxr h.1)]

/-! ## Lemmas: the encrypt-side zigzag fill -/

theorem encFill_even (text : List Char) (rows cols : Nat) (rk : Nat) (hrk : rk < rows) :
    ∀ (n : Nat), n ≤ cols → ∀ (f : Nat → Nat → Option Char) (idx : Nat), idx ≤ text.length →
    (List.range n).foldl (fillStep text rk) (mapGrid f rows cols, idx) =
      (mapGrid (fun r c =>
          if r = rk ∧ c < n ∧ idx + c < text.length then some (text.getD (idx + c) 'A')
          else f r c) rows cols,
        min (idx + n) text.length) := by
  intro n
  induction n with
  | zero =>
    intro hn f idx hidx
    simp only [List.range_zero, List.foldl_nil]
    rw [Prod.mk.injEq]
    refine ⟨?_, by omega⟩
    apply mapGrid_congr
    intro r _ c _
    rw [if_neg (fun h => by omega)]
  | succ m ih =>
    intro hn f idx hidx
    rw [List.range_succ, List.foldl_append]
    rw [ih (by omega) f idx hidx]
    simp only [List.foldl_cons, List.foldl_nil]
    by_cases hguard : idx + m < text.length
    · have hmin : min (idx + m) text.length = idx + m := by omega
      rw [hmin]
      have hstep : fillStep text rk
          (mapGrid (fun r c => if r = rk ∧ c < m ∧ idx + c < text.length then
            some (text.getD (idx + c) 'A') else f r c) rows cols, idx + m) m =
          (gridSet (mapGrid (fun r c => if r = rk ∧ c < m ∧ idx + c < text.length then
            some (text.getD (idx + c) 'A') else f r c) rows cols) rk m
            (text.getD (idx + m) 'A'), idx + m + 1) := by
        unfold fillStep
        rw [if_pos hguard]
      rw [hstep, mapGrid_set _ _ _ _ _ _ hrk (by omega)]
      rw [Prod.mk.injEq]
      refine ⟨?_, by omega⟩
      apply mapGrid_congr
      intro r _ c _
      beta_reduce
      by_cases hrr : r = rk
      · subst hrr
        by_cases hcc : c = m
        · subst hcc
          rw [if_pos ⟨rfl, rfl⟩, if_pos ⟨rfl, by omega, hguard⟩]
        · rw [if_neg (fun h => hcc h.2)]
          by_cases hcm : c < m
          · by_cases hcl : idx + c < text.length
            · rw [if_pos ⟨rfl, hcm, hcl⟩, if_pos ⟨rfl, by omega, hcl⟩]
            · rw [if_neg (fun h => hcl h.2.2), if_neg (fun h => hcl h.2.2)]
          · rw [if_neg (fun h => hcm h.2.1), if_neg (fun h => hcc (by omega : c = m))]
      · rw [if_neg (fun h => hrr h.1), if_neg (fun h => hrr h.1),
          if_neg (fun h => hrr h.1)]
    · have hmin : min (idx + m) text.length = text.length := by omega
      rw [hmin]
      have hstep : fillStep text rk
          (mapGrid (fun r c => if r = rk ∧ c < m ∧ idx + c < text.length then
            some (text.getD (idx + c) 'A') else f r c) rows cols, text.length) m =
          (mapGrid (fun r c => if r = rk ∧ c < m ∧ idx + c < text.length then
            some (text.getD (idx + c) 'A') else f r c) rows cols, text.length) := by
        unfold fillStep
        rw [if_neg (by omega)]
      rw [hstep]
      rw [Prod.mk.injEq]
      refine ⟨?_, by omega⟩
      apply mapGrid_congr
      intro r _ c _
      beta_reduce
      by_cases hcond : r = rk ∧ c < m ∧ idx + c < text.length
      · rw [if_pos hcond, if_pos ⟨hcond.1, by omega, hcond.2.2⟩]
      · rw [if_neg hcond]
        rw [if_neg (fun h => hcond ⟨h.1, by omega, h.2.2⟩)]

theorem encFill_odd (text : List Char) (rows cols : Nat) (rk : Nat) (hrk : rk < rows) :
    ∀ (n : Nat), n ≤ cols → ∀ (f : Nat → Nat → Option Char) (idx : Nat), idx ≤ text.length →
    ((List.range n).reverse).foldl (fillStep text rk) (mapGrid f rows cols, idx) =
      (mapGrid (fun r c =>
          if r = rk ∧ c < n ∧ idx + (n - 1 - c) < text.length then
            some (text.getD (idx + (n - 1 - c)) 'A')
          else f r c) rows cols,
        min (idx + n) text.length) := by
  intro n
  induction n with
  | zero =>
    intro hn f idx hidx
    simp only [List.range_zero, List.reverse_nil, List.foldl_nil]
    rw [Prod.mk.injEq]
    refine ⟨?_, by omega⟩
    apply mapGrid_congr
    intro r _ c _
    rw [if_neg (fun h => by omega)]
  | succ m ih =>
    intro hn f idx hidx
    rw [List.range_succ, List.reverse_append, List.reverse_singleton]
    simp only [List.singleton_append, List.foldl_cons]
    by_cases hguard : idx < text.length
    · have hstep : fillStep text rk (mapGrid f rows cols, idx) m =
          (gridSet (mapGrid f rows cols) rk m (text.getD idx 'A'), idx + 1) := by
        unfold fillStep
        rw [if_pos hguard]
      rw [hstep, mapGrid_set _ _ _ _ _ _ hrk (by omega)]
      rw [ih (by omega) (fun r' c' => if r' = rk ∧ c' = m then some (text.getD idx 'A')
        else f r' c') (idx + 1) (by omega)]
      rw [Prod.mk.injEq]
      refine ⟨?_, by omega⟩
      apply mapGrid_congr
      intro r _ c _
      beta_reduce
      simp only [Nat.add_sub_cancel]
      by_cases hrr : r = rk
      · subst hrr
        by_cases hcm : c < m
        · by_cases hcl : idx + (m - c) < text.length
          · rw [if_pos ⟨rfl, hcm, by omega⟩, if_pos ⟨rfl, by omega, hcl⟩]
            congr 2
            omega
          · rw [if_neg (fun (h : r = r ∧ c < m ∧ idx + 1 + (m - 1 - c) < text.length) =>
                hcl (by omega)),
              if_neg (fun (h : r = r ∧ c = m) => by omega),
              if_neg (fun (h : r = r ∧ c < m + 1 ∧ idx + (m - c) < text.length) =>
                hcl h.2.2)]
        · by_cases hcc : c = m
          · subst hcc
            rw [if_neg (fun (h : r = r ∧ c < c ∧ idx + 1 + (c - 1 - c) < text.length) =>
                by omega),
              if_pos (⟨rfl, rfl⟩ : r = r ∧ c = c),
              if_pos (⟨rfl, by omega, by omega⟩ :
                r = r ∧ c < c + 1 ∧ idx + (c - c) < text.length)]
            congr 2
            omega
          · rw [if_neg (fun (h : r = r ∧ c < m ∧ idx + 1 + (m - 1 - c) < text.length) =>
                hcm h.2.1),
              if_neg (fun (h : r = r ∧ c = m) => hcc h.2),
              if_neg (fun (h : r = r ∧ c < m + 1 ∧ idx + (m - c) < text.length) =>
                by omega)]
      · rw [if_neg (fun h => hrr h.1), if_neg (fun h => hrr h.1),
          if_neg (fun h => hrr h.1)]
    · have hstep : fillStep text rk (mapGrid f rows cols, idx) m =
          (mapGrid f rows cols, idx) := by
        unfold fillStep
        rw [if_neg hguard]
      rw [hstep, ih (by omega) f idx hidx]
      rw [Prod.mk.injEq]
      refine ⟨?_, by omega⟩
      apply mapGrid_congr
      intro r _ c _
      beta_reduce
      simp only [Nat.add_sub_cancel]
      by_cases hcond : r = rk ∧ c < m ∧ idx + (m - 1 - c) < text.length
      · exact absurd (by omega : idx < text.length) hguard
      · rw [if_neg hcond, if_neg (fun h => by omega)]

theorem getElem?_eq_some_getD {α : Type} (l : List α) (n : Nat) (d : α) (h : n < l.length) :
    l[n]? = some (l.getD n d) := by
  rw [List.getD_eq_getElem?_getD, List.getElem?_eq_getElem h]
  rfl

theorem encRow_fold (text : List Char) (rows cols rk : Nat) (hrk : rk < rows)
    (f : Nat → Nat → Option Char) (idx : Nat) (hidx : idx ≤ text.length) :
    (rowCols cols rk).foldl (fillStep text rk) (mapGrid f rows cols, idx) =
      (mapGrid (fun r c =>
          if r = rk ∧ c < cols ∧ idx + rowOff cols rk c < text.length then
            some (text.getD (idx + rowOff cols rk c) 'A')
          else f r c) rows cols,
        min (idx + cols) text.length) := by
  unfold rowCols rowOff
  cases hpar : (rk % 2 == 0) with
  | true =>
    simp only [hpar, if_true]
    exact encFill_even text rows cols rk hrk cols (Nat.le_refl cols) f idx hidx
  | false =>
    simp only [hpar, Bool.false_eq_true, if_false]
    exact encFill_odd text rows cols rk hrk cols (Nat.le_refl cols) f idx hidx

theorem encrypt_fill_eq (text : List Char) (cols rows : Nat) :
    encrypt_fill text cols rows =
      mapGrid (fun r c => text[gridIdx cols r c]?) rows cols := by
  have main : ∀ k, k ≤ rows →
      (List.range k).foldl (fun s row => (rowCols cols row).foldl (fillStep text row) s)
        (emptyGrid rows cols, 0) =
      (mapGrid (fun r c => if r < k then text[gridIdx cols r c]? else none) rows cols,
        min (k * cols) text.length) := by
    intro k
    induction k with
    | zero =>
      intro _
      simp only [List.range_zero, List.foldl_nil, Nat.zero_mul, Nat.zero_min]
      rw [emptyGrid_eq, Prod.mk.injEq]
      refine ⟨?_, by omega⟩
      apply mapGrid_congr
      intro r _ c _
      rw [if_neg (by omega)]
    | succ m ih =>
      intro hm
      rw [List.range_succ, List.foldl_append, ih (by omega)]
      simp only [List.foldl_cons, List.foldl_nil]
      rw [encRow_fold text rows cols m (by omega) _ _ (by omega)]
      rw [Prod.mk.injEq]
      have hmul : (m + 1) * cols = m * cols + cols := by ring
      refine ⟨?_, by omega⟩
      apply mapGrid_congr
      intro r _ c hcc
      beta_reduce
      by_cases hrr : r = m
      · subst hrr
        rw [if_pos (by omega : r < r + 1)]
        by_cases hcase : r * cols ≤ text.length
        · have hminp : min (r * cols) text.length = r * cols := by omega
          rw [hminp]
          by_cases hg : r * cols + rowOff cols r c < text.length
          · rw [if_pos ⟨rfl, hcc, hg⟩]
            rw [getElem?_eq_some_getD text (gridIdx cols r c) 'A' hg]
            rfl
          · rw [if_neg (fun h => hg h.2.2), if_neg (by omega : ¬r < r)]
            rw [List.getElem?_eq_none (by unfold gridIdx; omega)]
        · have hminp : min (r * cols) text.length = text.length := by omega
          rw [hminp]
          rw [if_neg (fun (h : r = r ∧ c < cols ∧ text.length + rowOff cols r c <
            text.length) => by omega), if_neg (by omega : ¬r < r)]
          rw [List.getElem?_eq_none ?hle]
          case hle =>
            unfold gridIdx
            have hro : 0 ≤ rowOff cols r c := by omega
            omega
      · rw [if_neg (fun h => hrr h.1)]
        by_cases hrm : r < m
        · rw [if_pos hrm, if_pos (by omega)]
        · rw [if_neg hrm, if_neg (by omega)]
  unfold encrypt_fill
  rw [main rows (Nat.le_refl rows)]
  apply mapGrid_congr
  intro r hr c _
  rw [if_pos hr]

/-! ## Lemmas: row-count and short-column arithmetic -/

theorem num_rows_bounds (len cols : Nat) (h : 1 ≤ cols) :
    len ≤ num_rows_for len cols * cols ∧ num_rows_for len cols * cols < len + cols := by
  unfold num_rows_for
  have hdm := Nat.div_add_mod (len + cols - 1) cols
  have hml : (len + cols - 1) % cols < cols := Nat.mod_lt _ (by omega)
  have hcm : (len + cols - 1) / cols * cols = cols * ((len + cols - 1) / cols) := by ring
  omega

theorem short_columns_even (cols R L : Nat) (he : 0 < R * cols - L) (hpar : (R - 1) % 2 = 0) :
    short_columns cols R L = List.range' (cols - (R * cols - L)) (R * cols - L) := by
  unfold short_columns
  simp [he, hpar]

theorem short_columns_odd (cols R L : Nat) (he : 0 < R * cols - L) (hpar : (R - 1) % 2 = 1) :
    short_columns cols R L = List.range (R * cols - L) := by
  unfold short_columns
  simp [he, hpar]

theorem short_columns_none (cols R L : Nat) (he : R * cols - L = 0) :
    short_columns cols R L = [] := by
  unfold short_columns
  simp [he]

theorem col_length_le (cols R L col : Nat) : col_length cols R L col ≤ R := by
  unfold col_length
  split <;> omega

theorem filled_iff (L cols : Nat) (hc : 1 ≤ cols) (row col : Nat)
    (hrow : row < num_rows_for L cols) (hcol : col < cols) :
    gridIdx cols row col < L ↔ row < col_length cols (num_rows_for L cols) L col := by
  set R := num_rows_for L cols with hR
  have hb := num_rows_bounds L cols hc
  rw [← hR] at hb
  have hel : (R * cols - L) + L = R * cols := Nat.sub_add_cancel hb.1
  have hup : R * cols = (R - 1) * cols + cols := by
    have h1 : R - 1 + 1 = R := by omega
    calc R * cols = (R - 1 + 1) * cols := by rw [h1]
    _ = (R - 1) * cols + cols := by ring
  have hoff : rowOff cols row col ≤ cols - 1 := by
    unfold rowOff
    split <;> omega
  by_cases hrow2 : row + 1 < R
  · have hmono : (row + 1) * cols ≤ (R - 1) * cols :=
      Nat.mul_le_mul_right cols (by omega)
    have hmul : (row + 1) * cols = row * cols + cols := by ring
    have hfill : gridIdx cols row col < L := by
      unfold gridIdx
      omega
    have hcl := col_length_le cols R L col
    have hcl2 : R - 1 ≤ col_length cols R L col := by
      unfold col_length
      split <;> omega
    constructor
    · intro _
      omega
    · intro _
      exact hfill
  · have hrowEq : row = R - 1 := by omega
    have hrc : row * cols = (R - 1) * cols := by rw [hrowEq]
    have hx : R * cols - L ≤ cols := by omega
    have hel2 : (cols - (R * cols - L)) + (R * cols - L) = cols := Nat.sub_add_cancel hx
    by_cases he : 0 < R * cols - L
    · cases hpar : ((R - 1) % 2 == 0) with
      | true =>
        have hpar' : (R - 1) % 2 = 0 := by simpa using hpar
        have hsc := short_columns_even cols R L he hpar'
        have hoffeq : rowOff cols row col = col := by
          unfold rowOff
          have h2 : row % 2 = 0 := by omega
          simp [h2]
        unfold col_length
        rw [hsc]
        unfold gridIdx
        rw [hoffeq]
        by_cases hmem : col ∈ List.range' (cols - (R * cols - L)) (R * cols - L)
        · rw [if_pos hmem]
          rw [mem_range1] at hmem
          constructor
          · intro hlt
            omega
          · intro hlt
            omega
        · rw [if_neg hmem]
          rw [mem_range1] at hmem
          constructor
          · intro _
            omega
          · intro _
            omega
      | false =>
        have hpar' : (R - 1) % 2 = 1 := by
          have : ¬((R - 1) % 2 = 0) := by simpa using hpar
          omega
        have hsc := short_columns_odd cols R L he hpar'
        have hoffeq : rowOff cols row col = cols - 1 - col := by
          unfold rowOff
          have h2 : row % 2 = 1 := by omega
          simp [h2]
        unfold col_length
        rw [hsc]
        unfold gridIdx
        rw [hoffeq]
        by_cases hmem : col ∈ List.range (R * cols - L)
        · rw [if_pos hmem]
          rw [List.mem_range] at hmem
          constructor
          · intro hlt
            omega
          · intro hlt
            omega
        · rw [if_neg hmem]
          rw [List.mem_range] at hmem
          constructor
          · intro _
            omega
          · intro _
            omega
    · have hsc := short_columns_none cols R L (by omega)
      unfold col_length
      rw [hsc]
      simp only [List.not_mem_nil, if_false]
      unfold gridIdx
      constructor
      · intro _
        omega
      · intro _
        omega

theorem range_split (a b : Nat) : List.range (a + b) = List.range a ++ List.range' a b := by
  rw [List.range_eq_range' (a + b), List.range_eq_range' a]
  have happ := List.range'_append 0 a b 1
  simp only [Nat.one_mul, Nat.zero_add] at happ
  rw [Nat.add_comm a b, ← happ]

theorem sum_col_lengths (L cols : Nat) (hc : 1 ≤ cols) :
    ((List.range cols).map (fun col => col_length cols (num_rows_for L cols) L col)).sum
      = L := by
  set R := num_rows_for L cols with hR
  have hb := num_rows_bounds L cols hc
  rw [← hR] at hb
  have hcomm : cols * R = R * cols := by ring
  have hel : (R * cols - L) + L = R * cols := Nat.sub_add_cancel hb.1
  by_cases he : 0 < R * cols - L
  · have hR1 : 1 ≤ R := by
      rcases Nat.eq_zero_or_pos R with h0 | h0
      · exfalso
        have hzz : R * cols = 0 := by rw [h0]; ring
        omega
      · exact h0
    have hecols : R * cols - L < cols := by omega
    have hel2 : (cols - (R * cols - L)) + (R * cols - L) = cols :=
      Nat.sub_add_cancel (Nat.le_of_lt hecols)
    have hsplitA := range_split (cols - (R * cols - L)) (R * cols - L)
    rw [hel2] at hsplitA
    have hsplitB := range_split (R * cols - L) (cols - (R * cols - L))
    rw [show R * cols - L + (cols - (R * cols - L)) = cols by omega] at hsplitB
    have p2 : (R * cols - L) * (R - 1) + (R * cols - L) = (R * cols - L) * R := by
      have h3 : R - 1 + 1 = R := by omega
      calc (R * cols - L) * (R - 1) + (R * cols - L)
          = (R * cols - L) * ((R - 1) + 1) := by ring
      _ = (R * cols - L) * R := by rw [h3]
    have p1 : (cols - (R * cols - L)) * R + (R * cols - L) * R = cols * R := by
      rw [← Nat.add_mul, hel2]
    cases hpar : ((R - 1) % 2 == 0) with
    | true =>
      have hpar' : (R - 1) % 2 = 0 := by simpa using hpar
      have hsc := short_columns_even cols R L he hpar'
      rw [hsplitA, List.map_append, List.sum_append]
      have h1 : (List.range (cols - (R * cols - L))).map
          (fun col => col_length cols R L col) =
          (List.range (cols - (R * cols - L))).map (fun _ => R) := by
        apply List.map_congr_left
        intro col hcm
        rw [List.mem_range] at hcm
        unfold col_length
        rw [hsc, if_neg (fun hmem => by rw [mem_range1] at hmem; omega)]
      have h2 : (List.range' (cols - (R * cols - L)) (R * cols - L)).map
          (fun col => col_length cols R L col) =
          (List.range' (cols - (R * cols - L)) (R * cols - L)).map (fun _ => R - 1) := by
        apply List.map_congr_left
        intro col hcm
        unfold col_length
        rw [hsc, if_pos hcm]
      rw [h1, h2, sum_map_const, sum_map_const, List.length_range, List.length_range']
      omega
    | false =>
      have hpar' : (R - 1) % 2 = 1 := by
        have : ¬((R - 1) % 2 = 0) := by simpa using hpar
        omega
      have hsc := short_columns_odd cols R L he hpar'
      rw [hsplitB, List.map_append, List.sum_append]
      have h1 : (List.range (R * cols - L)).map (fun col => col_length cols R L col) =
          (List.range (R * cols - L)).map (fun _ => R - 1) := by
        apply List.map_congr_left
        intro col hcm
        unfold col_length
        rw [hsc, if_pos hcm]
      have h2 : (List.range' (R * cols - L) (cols - (R * cols - L))).map
          (fun col => col_length cols R L col) =
          (List.range' (R * cols - L) (cols - (R * cols - L))).map (fun _ => R) := by
        apply List.map_congr_left
        intro col hcm
        rw [mem_range1] at hcm
        unfold col_length
        rw [hsc, if_neg (fun hmem => by rw [List.mem_range] at hmem; omega)]
      rw [h1, h2, sum_map_const, sum_map_const, List.length_range, List.length_range']
      have p4 : (R * cols - L) * (R - 1) + (R * cols - L) = (R * cols - L) * R := p2
      omega
  · have hsc := short_columns_none cols R L (by omega)
    have h1 : (List.range cols).map (fun col => col_length cols R L col) =
        (List.range cols).map (fun _ => R) := by
      apply List.map_congr_left
      intro col _
      unfold col_length
      rw [hsc]
      simp
    rw [h1, sum_map_const, List.length_range]
    omega

/-! ## Lemmas: the column order is a permutation of the column indices -/

theorem insertByKey_perm (key : Nat → Int) (a : Nat) (l : List Nat) :
    (insertByKey key a l).Perm (a :: l) := by
  induction l with
  | nil => exact List.Perm.refl _
  | cons b bs ih =>
    unfold insertByKey
    split
    · exact List.Perm.refl _
    · exact (List.Perm.cons b ih).trans (List.Perm.swap a b bs)

theorem sortByKey_perm (key : Nat → Int) (l : List Nat) : (sortByKey key l).Perm l := by
  induction l with
  | nil => exact List.Perm.refl _
  | cons a as ih =>
    unfold sortByKey
    exact (insertByKey_perm key a (sortByKey key as)).trans (List.Perm.cons a ih)

theorem column_order_perm (tk : List Int) :
    (column_order tk).Perm (List.range tk.length) :=
  sortByKey_perm _ _

theorem column_order_nodup (tk : List Int) : (column_order tk).Nodup :=
  ((column_order_perm tk).nodup_iff).mpr (List.nodup_range _)

theorem column_order_mem (tk : List Int) {c : Nat} (h : c ∈ column_order tk) :
    c < tk.length := by
  have := ((column_order_perm tk).mem_iff).mp h
  simpa using this

theorem flatMap_congr_left {α β : Type} (l : List α) (f g : α → List β)
    (h : ∀ a ∈ l, f a = g a) : l.flatMap f = l.flatMap g := by
  induction l with
  | nil => rfl
  | cons a t ih =>
    rw [List.flatMap_cons, List.flatMap_cons, h a (by simp),
      ih (fun x hx => h x (by simp [hx]))]

/-! ## Lemmas: the encrypt-side transposition as column chunks -/

theorem readColumn_spec (text : List Char) (cols : Nat) (hc : 1 ≤ cols) (col : Nat)
    (hcol : col < cols) :
    readColumn (encrypt_fill text cols (num_rows_for text.length cols))
        (num_rows_for text.length cols) col =
      colChars text cols (num_rows_for text.length cols) text.length col := by
  unfold readColumn
  rw [encrypt_fill_eq]
  rw [List.filterMap_congr (g := fun row => text[gridIdx cols row col]?) ?hcg]
  case hcg =>
    intro row hr
    rw [List.mem_range] at hr
    rw [mapGrid_get, if_pos ⟨hr, hcol⟩]
  rw [filterMap_range_truncate _ (num_rows_for text.length cols)
    (col_length cols (num_rows_for text.length cols) text.length col)
    (col_length_le _ _ _ _) ?hnone]
  case hnone =>
    intro r hge hlt
    have hiff := filled_iff text.length cols hc r col hlt hcol
    rw [List.getElem?_eq_none (by omega)]
  rw [filterMap_range_map _ (fun row => text.getD (gridIdx cols row col) 'A') _ ?hsome]
  case hsome =>
    intro r hr
    have hrR : r < num_rows_for text.length cols :=
      Nat.lt_of_lt_of_le hr (col_length_le _ _ _ _)
    have hiff := filled_iff text.length cols hc r col hrR hcol
    exact getElem?_eq_some_getD text _ 'A' (by omega)
  rfl

theorem transposition_encrypt_eq (tk : List Int) (text : List Char) (hc : 1 ≤ tk.length) :
    transposition_encrypt tk text =
      (column_order tk).flatMap
        (fun col => colChars text tk.length (num_rows_for text.length tk.length)
          text.length col) := by
  unfold transposition_encrypt
  apply flatMap_congr_left
  intro col hmem
  exact readColumn_spec text tk.length hc col (column_order_mem tk hmem)

theorem transposition_encrypt_length (tk : List Int) (text : List Char)
    (hc : 1 ≤ tk.length) :
    (transposition_encrypt tk text).length = text.length := by
  rw [transposition_encrypt_eq tk text hc, List.length_flatMap]
  have hmap : (column_order tk).map (List.length ∘
      (fun col => colChars text tk.length (num_rows_for text.length tk.length)
        text.length col)) =
      (column_order tk).map
        (fun col => col_length tk.length (num_rows_for text.length tk.length)
          text.length col) := by
    apply List.map_congr_left
    intro col _
    simp only [Function.comp]
    unfold colChars
    rw [List.length_map, List.length_range]
  rw [hmap]
  rw [List.Perm.sum_eq ((column_order_perm tk).map _)]
  exact sum_col_lengths text.length tk.length hc

/-! ## Lemmas: the decrypt-side grid reconstruction -/

theorem decCol_fold (cipher : List Char) (rows cols c : Nat) (hcC : c < cols) :
    ∀ (k : Nat), k ≤ rows → ∀ (f : Nat → Nat → Option Char) (idx : Nat),
      idx ≤ cipher.length →
    (List.range k).foldl (decFillStep cipher c) (mapGrid f rows cols, idx) =
      (mapGrid (fun r c' =>
          if c' = c ∧ r < k ∧ idx + r < cipher.length then some (cipher.getD (idx + r) 'A')
          else f r c') rows cols,
        min (idx + k) cipher.length) := by
  intro k
  induction k with
  | zero =>
    intro _ f idx hidx
    simp only [List.range_zero, List.foldl_nil]
    rw [Prod.mk.injEq]
    refine ⟨?_, by omega⟩
    apply mapGrid_congr
    intro r _ c' _
    rw [if_neg (fun h => by omega)]
  | succ m ih =>
    intro hm f idx hidx
    rw [List.range_succ, List.foldl_append, ih (by omega) f idx hidx]
    simp only [List.foldl_cons, List.foldl_nil]
    by_cases hguard : idx + m < cipher.length
    · have hminp : min (idx + m) cipher.length = idx + m := by omega
      rw [hminp]
      have hstep : decFillStep cipher c
          (mapGrid (fun r c' => if c' = c ∧ r < m ∧ idx + r < cipher.length then
            some (cipher.getD (idx + r) 'A') else f r c') rows cols, idx + m) m =
          (gridSet (mapGrid (fun r c' => if c' = c ∧ r < m ∧ idx + r < cipher.length then
            some (cipher.getD (idx + r) 'A') else f r c') rows cols) m c
            (cipher.getD (idx + m) 'A'), idx + m + 1) := by
        unfold decFillStep
        rw [if_pos hguard]
      rw [hstep, mapGrid_set _ _ _ _ _ _ (by omega) hcC]
      rw [Prod.mk.injEq]
      refine ⟨?_, by omega⟩
      apply mapGrid_congr
      intro r _ c' _
      beta_reduce
      by_cases hcc' : c' = c
      · subst hcc'
        by_cases hrm : r = m
        · subst hrm
          rw [if_pos ⟨rfl, rfl⟩, if_pos ⟨rfl, by omega, hguard⟩]
        · rw [if_neg (fun h => hrm h.1)]
          by_cases hrm2 : r < m
          · by_cases hrl : idx + r < cipher.length
            · rw [if_pos ⟨rfl, hrm2, hrl⟩, if_pos ⟨rfl, by omega, hrl⟩]
            · rw [if_neg (fun h => hrl h.2.2), if_neg (fun h => hrl h.2.2)]
          · rw [if_neg (fun h => hrm2 h.2.1), if_neg (fun h => hrm (by omega : r = m))]
      · rw [if_neg (fun h => hcc' h.2), if_neg (fun h => hcc' h.1),
          if_neg (fun h => hcc' h.1)]
    · have hminp : min (idx + m) cipher.length = cipher.length := by omega
      rw [hminp]
      have hstep : decFillStep cipher c
          (mapGrid (fun r c' => if c' = c ∧ r < m ∧ idx + r < cipher.length then
            some (cipher.getD (idx + r) 'A') else f r c') rows cols, cipher.length) m =
          (mapGrid (fun r c' => if c' = c ∧ r < m ∧ idx + r < cipher.length then
            some (cipher.getD (idx + r) 'A') else f r c') rows cols, cipher.length) := by
        unfold decFillStep
        rw [if_neg (by omega)]
      rw [hstep, Prod.mk.injEq]
      refine ⟨?_, by omega⟩
      apply mapGrid_congr
      intro r _ c' _
      beta_reduce
      by_cases hcond : c' = c ∧ r < m ∧ idx + r < cipher.length
      · rw [if_pos hcond, if_pos ⟨hcond.1, by omega, hcond.2.2⟩]
      · rw [if_neg hcond, if_neg (fun h => hcond ⟨h.1, by omega, h.2.2⟩)]

theorem decFill_loop (text : List Char) (cols : Nat) (hc : 1 ≤ cols) :
    ∀ (todo done : List Nat) (cipher : List Char),
      (∀ x ∈ done ++ todo, x < cols) →
      (done ++ todo).Nodup →
      cipher = (done ++ todo).flatMap
        (fun col => colChars text cols (num_rows_for text.length cols) text.length col) →
      todo.foldl
        (fun s col =>
          (List.range (col_length cols (num_rows_for text.length cols) text.length
            col)).foldl (decFillStep cipher col) s)
        (mapGrid (fun r c => if c ∈ done then text[gridIdx cols r c]? else none)
            (num_rows_for text.length cols) cols,
          (done.flatMap (fun col => colChars text cols (num_rows_for text.length cols)
            text.length col)).length) =
      (mapGrid (fun r c => if c ∈ done ++ todo then text[gridIdx cols r c]? else none)
        (num_rows_for text.length cols) cols, cipher.length) := by
  intro todo
  induction todo with
  | nil =>
    intro done cipher hall hnd hcip
    simp only [List.foldl_nil, List.append_nil] at hcip ⊢
    rw [Prod.mk.injEq]
    exact ⟨rfl, by rw [hcip]⟩
  | cons c₀ rest ih =>
    intro done cipher hall hnd hcip
    set R := num_rows_for text.length cols with hR
    set L := text.length with hL
    have hc0 : c₀ < cols := hall c₀ (by simp)
    have hc0nd : c₀ ∉ done := by
      rw [List.nodup_append] at hnd
      exact fun hmem => hnd.2.2 hmem (by simp)
    have hcipA : cipher = (done.flatMap (fun col => colChars text cols R L col)) ++
        (colChars text cols R L c₀ ++
          rest.flatMap (fun col => colChars text cols R L col)) := by
      rw [hcip, List.flatMap_append, List.flatMap_cons]
    have hkdef : (colChars text cols R L c₀).length = col_length cols R L c₀ := by
      unfold colChars
      rw [List.length_map, List.length_range]
    have hidxlen : (done.flatMap (fun col => colChars text cols R L col)).length +
        (col_length cols R L c₀ +
          (rest.flatMap (fun col => colChars text cols R L col)).length) =
        cipher.length := by
      rw [hcipA, List.length_append, List.length_append, hkdef]
    have hidxle : (done.flatMap (fun col => colChars text cols R L col)).length ≤
        cipher.length := by omega
    have happ : (done ++ [c₀]) ++ rest = done ++ c₀ :: rest := by
      rw [List.append_assoc, List.singleton_append]
    rw [List.foldl_cons]
    rw [decCol_fold cipher R cols c₀ hc0 (col_length cols R L c₀)
      (col_length_le _ _ _ _) _ _ hidxle]
    have key := ih (done ++ [c₀]) cipher ?hall2 ?hnd2 ?hcip2
    case hall2 => rw [happ]; exact hall
    case hnd2 => rw [happ]; exact hnd
    case hcip2 => rw [happ]; exact hcip
    rw [happ] at key
    rw [← key]
    congr 1
    rw [Prod.mk.injEq]
    constructor
    · apply mapGrid_congr
      intro r hrR c' hcc
      beta_reduce
      by_cases hcc0 : c' = c₀
      · subst hcc0
        rw [if_pos (by simp : c' ∈ done ++ [c'])]
        by_cases hrk : r < col_length cols R L c'
        · have hiff := filled_iff L cols hc r c' (by rw [hR] at hrR; exact hrR) hc0
          rw [← hR] at hiff
          have hgi : gridIdx cols r c' < L := by omega
          have hrk2 : r < (colChars text cols R L c').length := by rw [hkdef]; exact hrk
          have hcv : cipher[(done.flatMap
              (fun col => colChars text cols R L col)).length + r]? =
              some (text.getD (gridIdx cols r c') 'A') := by
            rw [hcipA]
            rw [List.getElem?_append_right (by omega)]
            rw [show (done.flatMap (fun col => colChars text cols R L col)).length + r -
              (done.flatMap (fun col => colChars text cols R L col)).length = r by omega]
            rw [List.getElem?_append_left hrk2]
            unfold colChars
            rw [List.getElem?_map, List.getElem?_range hrk]
            rfl
          rw [if_pos ⟨rfl, hrk, by omega⟩]
          rw [List.getD_eq_getElem?_getD, hcv]
          rw [getElem?_eq_some_getD text _ 'A' hgi]
          rfl
        · rw [if_neg (fun h => hrk h.2.1), if_neg hc0nd]
          have hiff := filled_iff L cols hc r c' (by rw [hR] at hrR; exact hrR) hc0
          rw [← hR] at hiff
          rw [List.getElem?_eq_none (by omega)]
      · rw [if_neg (fun h => hcc0 h.1)]
        by_cases hmem : c' ∈ done
        · rw [if_pos hmem, if_pos (by simp [hmem])]
        · rw [if_neg hmem, if_neg (by simp [hmem, hcc0])]
    · rw [List.flatMap_append, List.length_append]
      simp only [List.flatMap_cons, List.flatMap_nil, List.append_nil]
      rw [hkdef]
      omega

theorem decrypt_fill_eq (tk : List Int) (text : List Char) (hc : 1 ≤ tk.length) :
    decrypt_fill (transposition_encrypt tk text) tk tk.length
        (num_rows_for text.length tk.length) text.length =
      mapGrid (fun r c => text[gridIdx tk.length r c]?)
        (num_rows_for text.length tk.length) tk.length := by
  unfold decrypt_fill
  have h := decFill_loop text tk.length hc (column_order tk) [] (transposition_encrypt tk text)
    ?hall ?hnd ?hcip
  case hall =>
    intro x hx
    rw [List.nil_append] at hx
    exact column_order_mem tk hx
  case hnd =>
    rw [List.nil_append]
    exact column_order_nodup tk
  case hcip =>
    rw [List.nil_append]
    exact transposition_encrypt_eq tk text hc
  simp only [List.nil_append, List.flatMap_nil, List.length_nil, List.not_mem_nil,
    if_false] at h
  rw [emptyGrid_eq]
  rw [h]
  apply mapGrid_congr
  intro r _ c hcc
  rw [if_pos (((column_order_perm tk).mem_iff).mpr (List.mem_range.mpr hcc))]

/-! ## Lemmas: the zigzag read recovers the text -/

theorem zig_row (text : List Char) (cols row : Nat) :
    (rowCols cols row).filterMap (fun col => text[gridIdx cols row col]?) =
      (text.drop (row * cols)).take cols := by
  unfold rowCols gridIdx rowOff
  cases hpar : (row % 2 == 0) with
  | true =>
    simp only [hpar, if_true]
    exact filterMap_range_chunk text cols (row * cols)
  | false =>
    simp only [hpar, Bool.false_eq_true, if_false]
    have hrev : (List.range cols).reverse =
        (List.range cols).map (fun i => cols - 1 - i) := by
      have h0 := List.reverse_range' 0 cols
      rw [← List.range_eq_range'] at h0
      simpa using h0
    rw [hrev, List.filterMap_map]
    rw [List.filterMap_congr (g := fun i => text[row * cols + i]?) ?hcg]
    · exact filterMap_range_chunk text cols (row * cols)
    case hcg =>
      intro i hi
      rw [List.mem_range] at hi
      simp only [Function.comp]
      congr 2
      omega

theorem chunks_join (cols : Nat) : ∀ (R : Nat) (text : List Char),
    text.length ≤ R * cols →
    (List.range R).flatMap (fun row => (text.drop (row * cols)).take cols) = text := by
  intro R
  induction R with
  | zero =>
    intro text h
    have hz : (0 : Nat) * cols = 0 := by ring
    have : text = [] := by
      cases text with
      | nil => rfl
      | cons a t => exfalso; rw [hz] at h; simp at h
    rw [this]
    rfl
  | succ m ih =>
    intro text h
    rw [List.range_succ_eq_map, List.flatMap_cons, List.flatMap_map]
    have hhead : (text.drop (0 * cols)).take cols = text.take cols := by
      rw [Nat.zero_mul, List.drop_zero]
    rw [hhead]
    have htail : (List.range m).flatMap
        (fun a => ((text.drop (Nat.succ a * cols)).take cols)) =
        (List.range m).flatMap
          (fun row => (((text.drop cols).drop (row * cols)).take cols)) := by
      apply flatMap_congr_left
      intro a _
      rw [List.drop_drop]
      have hsm : Nat.succ a * cols = cols + a * cols := by
        rw [Nat.succ_mul]
        omega
      rw [hsm]
    rw [htail, ih (text.drop cols) ?hlen]
    · exact List.take_append_drop cols text
    case hlen =>
      rw [List.length_drop]
      have hsm : (m + 1) * cols = m * cols + cols := by ring
      omega

theorem zigzag_read_spec (text : List Char) (cols : Nat) (hc : 1 ≤ cols) :
    zigzag_read (mapGrid (fun r c => text[gridIdx cols r c]?)
        (num_rows_for text.length cols) cols) cols (num_rows_for text.length cols) =
      text := by
  unfold zigzag_read
  rw [flatMap_congr_left _ _
    (fun row => (text.drop (row * cols)).take cols) ?hcg]
  · exact chunks_join cols (num_rows_for text.length cols) text
      (num_rows_bounds text.length cols hc).1
  case hcg =>
    intro row hr
    rw [List.mem_range] at hr
    have hinner : (rowCols cols row).filterMap
        (fun col => gridGet (mapGrid (fun r c => text[gridIdx cols r c]?)
          (num_rows_for text.length cols) cols) row col) =
        (rowCols cols row).filterMap (fun col => text[gridIdx cols row col]?) := by
      apply List.filterMap_congr
      intro col hcol
      have hcolC : col < cols := by
        unfold rowCols at hcol
        split at hcol
        · rw [List.mem_range] at hcol
          exact hcol
        · rw [List.mem_reverse, List.mem_range] at hcol
          exact hcol
      rw [mapGrid_get, if_pos ⟨hr, hcolC⟩]
    rw [hinner, zig_row]

/-- The zigzag transposition decrypt exactly inverts the zigzag transposition
encrypt, for every transposition key with at least one column and every
text. -/
theorem transposition_roundtrip (tk : List Int) (text : List Char)
    (hc : 1 ≤ tk.length) :
    transposition_decrypt tk (transposition_encrypt tk text) = text := by
  show zigzag_read
      (decrypt_fill (transposition_encrypt tk text) tk tk.length
        (num_rows_for (transposition_encrypt tk text).length tk.length)
        (transposition_encrypt tk text).length)
      tk.length (num_rows_for (transposition_encrypt tk text).length tk.length) = text
  rw [transposition_encrypt_length tk text hc]
  rw [decrypt_fill_eq tk text hc]
  exact zigzag_read_spec text tk.length hc

/-! ## Lemmas: construction and the full pipeline -/

theorem mkMLCCipher_ok (s v : List Char) (t : List Int) (m : MLCCipher)
    (h : mkMLCCipher s v t = Except.ok m) :
    m.substitution_key = s.map pyUpper ∧ m.vigenere_key = v.map pyUpper ∧
    m.transposition_key = t ∧ s.length = 26 ∧ s.dedup.length = 26 ∧
    10 ≤ v.length ∧ 3 ≤ t.length := by
  unfold mkMLCCipher at h
  split at h
  · exact absurd h (by simp)
  · split at h
    · exact absurd h (by simp)
    · split at h
      · exact absurd h (by simp)
      · rename_i h1 h2 h3
        injection h with hm
        push_neg at h1
        rw [← hm]
        exact ⟨rfl, rfl, rfl, h1.1, h1.2, by omega, by omega⟩

theorem dedup_length_iff (s : List Char) : s.dedup.length = s.length ↔ s.Nodup := by
  constructor
  · intro h
    have hsub := List.dedup_sublist s
    have heq := hsub.eq_of_length h
    rw [← heq]
    exact List.nodup_dedup s
  · intro h
    rw [List.dedup_eq_self.mpr h]

theorem mkMLCCipher_error_iff (s v : List Char) (t : List Int) :
    (∃ e, mkMLCCipher s v t = Except.error e) ↔
      (¬(s.length = 26 ∧ s.Nodup) ∨ v.length < 10 ∨ t.length < 3) := by
  unfold mkMLCCipher
  by_cases h1 : s.length ≠ 26 ∨ s.dedup.length ≠ 26
  · rw [if_pos h1]
    constructor
    · intro _
      left
      intro hcon
      rcases h1 with h | h
      · exact h hcon.1
      · apply h
        rw [(dedup_length_iff s).mpr hcon.2, hcon.1]
    · intro _
      exact ⟨_, rfl⟩
  · rw [if_neg h1]
    push_neg at h1
    by_cases h2 : v.length < 10
    · rw [if_pos h2]
      constructor
      · intro _
        right
        left
        exact h2
      · intro _
        exact ⟨_, rfl⟩
    · rw [if_neg h2]
      by_cases h3 : t.length < 3
      · rw [if_pos h3]
        constructor
        · intro _
          right
          right
          exact h3
        · intro _
          exact ⟨_, rfl⟩
      · rw [if_neg h3]
        constructor
        · rintro ⟨e, he⟩
          exact absurd he (by simp)
        · intro hrhs
          exfalso
          rcases hrhs with h | h | h
          · apply h
            refine ⟨h1.1, ?_⟩
            exact (dedup_length_iff s).mp (by rw [h1.2, h1.1])
          · exact h2 h
          · exact h3 h

theorem translateAll_map_id (f : Char → Char) (g : Char → Option Char) (l : List Char)
    (h : ∀ c ∈ l, g (f c) = some c) : translateAll g (l.map f) = some l := by
  induction l with
  | nil => rfl
  | cons c tcs ih =>
    rw [List.map_cons]
    unfold translateAll
    rw [h c (by simp), ih (fun x hx => h x (by simp [hx]))]

theorem mlcc_roundtrip_core (s v : List Char) (t : List Int) (m : MLCCipher)
    (pt : List Char)
    (hm : mkMLCCipher s v t = Except.ok m)
    (hup : ∀ c ∈ s.map pyUpper, isUpperAZ c)
    (hnd : (s.map pyUpper).Nodup) :
    (m.encrypt pt).bind (fun r => m.decrypt r.ciphertext) = some (clean pt) := by
  obtain ⟨hs, hv, ht, hslen, _, hvlen, htlen⟩ := mkMLCCipher_ok s v t m hm
  have hukey : m.substitution_key.length = 26 := by rw [hs, List.length_map, hslen]
  have hund : m.substitution_key.Nodup := by rw [hs]; exact hnd
  have hukeyAZ : ∀ c ∈ m.substitution_key, isUpperAZ c := by rw [hs]; exact hup
  have hcleanAZ := clean_mem pt
  set cleaned := clean pt with hcleaned
  have hsub : translateAll (substitution_map m.substitution_key) cleaned =
      some (cleaned.map (fun c => m.substitution_key.getD (c.toNat - 65) 'A')) := by
    apply translateAll_eq_map
    intro c hcmem
    exact substitution_map_eq m.substitution_key hukey c (hcleanAZ c hcmem)
  have henc : m.encrypt pt = some
      { ciphertext := transposition_encrypt m.transposition_key
          (vigenere_encrypt m.vigenere_key
            (cleaned.map (fun c => m.substitution_key.getD (c.toNat - 65) 'A')))
        substituted_text :=
          cleaned.map (fun c => m.substitution_key.getD (c.toNat - 65) 'A')
        vigenere_result := vigenere_encrypt m.vigenere_key
          (cleaned.map (fun c => m.substitution_key.getD (c.toNat - 65) 'A'))
        column_order := column_order m.transposition_key } := by
    unfold MLCCipher.encrypt
    rw [← hcleaned]
    simp only [hsub]
  rw [henc]
  show m.decrypt (transposition_encrypt m.transposition_key
    (vigenere_encrypt m.vigenere_key
      (cleaned.map (fun c => m.substitution_key.getD (c.toNat - 65) 'A')))) = some cleaned
  show translateAll (reverse_substitution_map m.substitution_key)
    (vigenere_decrypt m.vigenere_key (transposition_decrypt m.transposition_key
      (transposition_encrypt m.transposition_key (vigenere_encrypt m.vigenere_key
        (cleaned.map (fun c => m.substitution_key.getD (c.toNat - 65) 'A')))))) =
    some cleaned
  rw [transposition_roundtrip m.transposition_key _ (by rw [ht]; omega)]
  rw [vig_roundtrip m.vigenere_key _ ?hsubAZ]
  case hsubAZ =>
    intro u hu
    rw [List.mem_map] at hu
    obtain ⟨c, hcmem, rfl⟩ := hu
    have hb : c.toNat - 65 < m.substitution_key.length := by
      have hcAZ := hcleanAZ c hcmem
      unfold isUpperAZ at hcAZ
      omega
    have hmem : m.substitution_key.getD (c.toNat - 65) 'A' ∈ m.substitution_key := by
      rw [List.getD_eq_getElem?_getD, List.getElem?_eq_getElem hb]
      exact List.getElem_mem hb
    exact hukeyAZ _ hmem
  apply translateAll_map_id
  intro c hcmem
  have hcAZ := hcleanAZ c hcmem
  have hb26 : c.toNat - 65 < 26 := by
    unfold isUpperAZ at hcAZ
    omega
  rw [reverse_substitution_map_eq m.substitution_key hukey hund (c.toNat - 65) hb26]
  rw [← upperAZ_repr c hcAZ]

/-! ## Lemmas: the Vigenere key recoverer -/

theorem getD_set_self {α : Type} (l : List α) (p : Nat) (v d : α) (h : p < l.length) :
    (l.set p v).getD p d = v := by
  rw [List.getD_eq_getElem?_getD, List.getElem?_set, if_pos rfl, if_pos h]
  rfl

theorem getD_set_ne {α : Type} (l : List α) (p q : Nat) (v d : α) (h : p ≠ q) :
    (l.set p v).getD q d = l.getD q d := by
  rw [List.getD_eq_getElem?_getD, List.getElem?_set, if_neg h, ← List.getD_eq_getElem?_getD]

theorem getD_replicate_self {α : Type} (a d : α) (n i : Nat) (h : i < n) :
    (List.replicate n a).getD i d = a := by
  rw [List.getD_eq_getElem?_getD, List.getElem?_replicate, if_pos h]
  rfl

theorem alphabet_map_ofNat : ∀ e, e < 26 → ALPHABET_MAP (Char.ofNat (65 + e)) = some e := by
  decide

theorem ALPHABET_MAP_upper (c : Char) (h : isUpperAZ c) :
    ALPHABET_MAP c = some (c.toNat - 65) := by
  have hb : c.toNat - 65 < 26 := by unfold isUpperAZ at h; omega
  conv_lhs => rw [upperAZ_repr c h, std_getD_all _ hb]
  exact alphabet_map_ofNat _ hb

theorem vig_char_toNat (key : List Char) (i : Nat) (c : Char) (hc : isUpperAZ c) :
    ((vig_enc_char_at key i c).toNat : Int) =
      (pyOrd c - 65 + (pyOrd (key.getD (pos_to_key_index i key.length) 'A') - 65) *
        ((modifier_for_pos i : Nat) : Int)) % 26 + 65 := by
  simp only [vig_enc_char_at]
  generalize (pyOrd (key.getD (pos_to_key_index i key.length) 'A') - 65) *
    ((modifier_for_pos i : Nat) : Int) = t
  have hcb := upperAZ_toNat_bounds c hc
  have h1 : 0 ≤ (pyOrd c - 65 + t) % 26 := Int.emod_nonneg _ (by norm_num)
  have h2 : (pyOrd c - 65 + t) % 26 < 26 := Int.emod_lt_of_pos _ (by norm_num)
  simp only [pyChr, pyOrd] at h1 h2 ⊢
  rw [toNat_char_ofNat _ (by omega)]
  omega

theorem vig_char_upper (key : List Char) (i : Nat) (c : Char) (hc : isUpperAZ c) :
    isUpperAZ (vig_enc_char_at key i c) := by
  have hvt := vig_char_toNat key i c hc
  unfold isUpperAZ
  revert hvt
  generalize (pyOrd c - 65 + (pyOrd (key.getD (pos_to_key_index i key.length) 'A') - 65) *
    ((modifier_for_pos i : Nat) : Int)) = X
  intro hvt
  have h1 : 0 ≤ X % 26 := Int.emod_nonneg _ (by norm_num)
  have h2 : X % 26 < 26 := Int.emod_lt_of_pos _ (by norm_num)
  omega

theorem shift_mem_possible (key : List Char) (i : Nat) (sc : Char)
    (hsc : isUpperAZ sc)
    (hk : isUpperAZ (key.getD (pos_to_key_index i key.length) 'A')) :
    (key.getD (pos_to_key_index i key.length) 'A').toNat - 65 ∈
      possible_shifts_for_pair sc (vig_enc_char_at key i sc) (modifier_for_pos i) := by
  have hvt := vig_char_toNat key i sc hsc
  have hscb := upperAZ_toNat_bounds sc hsc
  have hkb := upperAZ_toNat_bounds _ hk
  have hvcU := vig_char_upper key i sc hsc
  have hvcb := upperAZ_toNat_bounds _ hvcU
  unfold possible_shifts_for_pair
  rw [ALPHABET_MAP_upper sc hsc, ALPHABET_MAP_upper _ hvcU]
  show (key.getD (pos_to_key_index i key.length) 'A').toNat - 65 ∈
    (List.range 26).filter
      (fun s => (sc.toNat - 65 + s * modifier_for_pos i) % 26 ==
        (vig_enc_char_at key i sc).toNat - 65)
  rw [List.mem_filter]
  constructor
  · rw [List.mem_range]
    omega
  · rw [beq_iff_eq]
    -- the Nat congruence, transported from the Int computation `hvt`
    simp only [pyOrd] at hvt
    have hprod : (((((key.getD (pos_to_key_index i key.length) 'A').toNat - 65) *
        modifier_for_pos i : Nat)) : Int) =
        (((key.getD (pos_to_key_index i key.length) 'A').toNat : Int) - 65) *
          ((modifier_for_pos i : Nat) : Int) := by
      push_cast
      have hs : ((((key.getD (pos_to_key_index i key.length) 'A').toNat - 65 : Nat)) : Int) =
          (((key.getD (pos_to_key_index i key.length) 'A').toNat : Int) - 65) := by omega
      rw [hs]
    revert hvt hprod
    generalize ((((key.getD (pos_to_key_index i key.length) 'A').toNat : Int) - 65) *
      ((modifier_for_pos i : Nat) : Int)) = T
    intro hvt hprod
    omega

theorem deriveLoop_sound (key substituted : List Char) (L : Nat)
    (hL : key.length = L) (hL1 : 1 ≤ L)
    (hkeyAZ : ∀ c ∈ key, isUpperAZ c)
    (hsubAZ : ∀ c ∈ substituted, isUpperAZ c) :
    ∀ (fuel i : Nat) (candidates : List (List Nat)),
      i + fuel = substituted.length →
      candidates.length = L →
      (∀ p, p < L → (key.getD p 'A').toNat - 65 ∈ candidates.getD p []) →
      ∃ cands,
        deriveLoop substituted (vigenere_encrypt key substituted) L i fuel candidates
          = some cands ∧
        cands.length = L ∧
        (∀ p, p < L → (key.getD p 'A').toNat - 65 ∈ cands.getD p []) := by
  intro fuel
  induction fuel with
  | zero =>
    intro i candidates hin hlen hmem
    exact ⟨candidates, rfl, hlen, hmem⟩
  | succ n ih =>
    intro i candidates hin hlen hmem
    have hi : i < substituted.length := by omega
    have hscmem : substituted.getD i 'A' ∈ substituted := by
      rw [List.getD_eq_getElem?_getD, List.getElem?_eq_getElem hi]
      exact List.getElem_mem hi
    have hsc : isUpperAZ (substituted.getD i 'A') := hsubAZ _ hscmem
    have hp : pos_to_key_index i L < L := Nat.mod_lt _ (by omega)
    have hkmem : key.getD (pos_to_key_index i L) 'A' ∈ key := by
      have hpl : pos_to_key_index i L < key.length := by omega
      rw [List.getD_eq_getElem?_getD, List.getElem?_eq_getElem hpl]
      exact List.getElem_mem hpl
    have hkU : isUpperAZ (key.getD (pos_to_key_index i L) 'A') := hkeyAZ _ hkmem
    have hvig : (vigenere_encrypt key substituted).getD i 'A' =
        vig_enc_char_at key i (substituted.getD i 'A') := by
      rw [List.getD_eq_getElem?_getD, vig_encrypt_getElem key substituted i hi]
      rfl
    have hposs := shift_mem_possible key i (substituted.getD i 'A') hsc (by rw [hL]; exact hkU)
    rw [hL] at hposs
    simp only [deriveLoop]
    rw [hvig]
    have hne1 : ¬ ((possible_shifts_for_pair (substituted.getD i 'A')
        (vig_enc_char_at key i (substituted.getD i 'A')) (modifier_for_pos i)).isEmpty = true) := by
      rw [List.isEmpty_iff]
      exact List.ne_nil_of_mem hposs
    rw [if_neg hne1]
    have hsint : (key.getD (pos_to_key_index i L) 'A').toNat - 65 ∈
        (candidates.getD (pos_to_key_index i L) []).filter
          (fun s => (possible_shifts_for_pair (substituted.getD i 'A')
            (vig_enc_char_at key i (substituted.getD i 'A')) (modifier_for_pos i)).contains s) := by
      rw [List.mem_filter]
      refine ⟨hmem _ hp, ?_⟩
      exact List.elem_iff.mpr hposs
    have hne2 : ¬ (((candidates.getD (pos_to_key_index i L) []).filter
        (fun s => (possible_shifts_for_pair (substituted.getD i 'A')
          (vig_enc_char_at key i (substituted.getD i 'A')) (modifier_for_pos i)).contains s)).isEmpty
        = true) := by
      rw [List.isEmpty_iff]
      exact List.ne_nil_of_mem hsint
    rw [if_neg hne2]
    apply ih (i + 1) _ (by omega) (by rw [List.length_set]; exact hlen)
    intro q hq
    by_cases hpq : pos_to_key_index i L = q
    · subst hpq
      rw [getD_set_self _ _ _ _ (by rw [hlen]; exact hp)]
      exact hsint
    · rw [getD_set_ne _ _ _ _ _ hpq]
      exact hmem q hq

theorem totalCombLoop_pos (maxc : Nat) :
    ∀ (lists : List (List Nat)) (acc : Nat), 1 ≤ acc → 1 ≤ totalCombLoop maxc lists acc
  | [], _, h => h
  | lst :: rest, acc, h => by
    simp only [totalCombLoop]
    by_cases hc : maxc < acc * max 1 lst.length
    · rw [if_pos hc]
      exact Nat.mul_pos h (lt_of_lt_of_le Nat.zero_lt_one (le_max_left 1 _))
    · rw [if_neg hc]
      exact totalCombLoop_pos maxc rest _
        (Nat.mul_pos h (lt_of_lt_of_le Nat.zero_lt_one (le_max_left 1 _)))

theorem derive_candidates_sound_core (key substituted : List Char) (L maxc : Nat)
    (hL : key.length = L) (hL1 : 1 ≤ L)
    (hkeyAZ : ∀ c ∈ key, isUpperAZ c)
    (hsubAZ : ∀ c ∈ substituted, isUpperAZ c) :
    ∃ res,
      derive_candidates_for_keylen substituted (vigenere_encrypt key substituted) L maxc
        = some res ∧
      ∀ p, p < L → (key.getD p 'A').toNat - 65 ∈ res.per_position_candidates.getD p [] := by
  have hinit : ∀ p, p < L →
      (key.getD p 'A').toNat - 65 ∈ (List.replicate L (List.range 26)).getD p [] := by
    intro p hpL
    rw [getD_replicate_self _ _ _ _ hpL, List.mem_range]
    have hkm : key.getD p 'A' ∈ key := by
      have hpl : p < key.length := by omega
      rw [List.getD_eq_getElem?_getD, List.getElem?_eq_getElem hpl]
      exact List.getElem_mem hpl
    have := upperAZ_toNat_bounds _ (hkeyAZ _ hkm)
    omega
  obtain ⟨cands, hloop, hclen, hcmem⟩ :=
    deriveLoop_sound key substituted L hL hL1 hkeyAZ hsubAZ substituted.length 0
      (List.replicate L (List.range 26)) (by omega) (by simp) hinit
  have hpos : 1 ≤ totalCombLoop maxc cands 1 := totalCombLoop_pos maxc cands 1 (le_refl 1)
  by_cases hcap : totalCombLoop maxc cands 1 ≤ maxc
  · refine ⟨⟨L, cands, some ((listProd cands).map
        (fun combo => (combo, combo.map INV_ALPHABET_MAP))), totalCombLoop maxc cands 1⟩,
      ?_, hcmem⟩
    unfold derive_candidates_for_keylen
    rw [hloop]
    simp only []
    rw [if_neg (by omega), if_pos hcap]
  · refine ⟨⟨L, cands, none, totalCombLoop maxc cands 1⟩, ?_, hcmem⟩
    unfold derive_candidates_for_keylen
    rw [hloop]
    simp only []
    rw [if_neg (by omega), if_neg hcap]

theorem prodMax1_pos : ∀ (lists : List (List Nat)),
    1 ≤ (lists.map (fun l => max 1 l.length)).prod
  | [] => le_refl 1
  | l :: ls => by
    rw [List.map_cons, List.prod_cons]
    exact Nat.mul_pos (lt_of_lt_of_le Nat.zero_lt_one (le_max_left 1 _)) (prodMax1_pos ls)

theorem totalCombLoop_gt_iff (maxc : Nat) :
    ∀ (lists : List (List Nat)) (acc : Nat),
      (maxc < totalCombLoop maxc lists acc ↔
        maxc < acc * (lists.map (fun l => max 1 l.length)).prod)
  | [], acc => by simp [totalCombLoop]
  | lst :: rest, acc => by
    simp only [totalCombLoop, List.map_cons, List.prod_cons]
    by_cases hc : maxc < acc * max 1 lst.length
    · rw [if_pos hc]
      constructor
      · intro _
        have h1 := prodMax1_pos rest
        have h2 : acc * max 1 lst.length * 1 ≤
            acc * max 1 lst.length * (rest.map (fun l => max 1 l.length)).prod :=
          Nat.mul_le_mul_left _ h1
        rw [Nat.mul_one] at h2
        rw [← Nat.mul_assoc]
        omega
      · intro _
        exact hc
    · rw [if_neg hc]
      rw [totalCombLoop_gt_iff maxc rest (acc * max 1 lst.length)]
      rw [Nat.mul_assoc]

theorem totalCombLoop_eq_of_le (maxc : Nat) :
    ∀ (lists : List (List Nat)) (acc : Nat),
      totalCombLoop maxc lists acc ≤ maxc →
      totalCombLoop maxc lists acc = acc * (lists.map (fun l => max 1 l.length)).prod
  | [], acc, _ => by simp [totalCombLoop]
  | lst :: rest, acc, h => by
    simp only [totalCombLoop, List.map_cons, List.prod_cons] at h ⊢
    by_cases hc : maxc < acc * max 1 lst.length
    · rw [if_pos hc] at h
      have h1 := prodMax1_pos rest
      have h2 : acc * max 1 lst.length * 1 ≤
          acc * max 1 lst.length * (rest.map (fun l => max 1 l.length)).prod :=
        Nat.mul_le_mul_left _ h1
      rw [Nat.mul_one] at h2
      omega
    · rw [if_neg hc] at h ⊢
      rw [totalCombLoop_eq_of_le maxc rest _ h, ← Nat.mul_assoc]

theorem map_max1_of_ne_nil (lists : List (List Nat)) (h : ∀ l ∈ lists, l ≠ []) :
    lists.map (fun l => max 1 l.length) = lists.map List.length := by
  apply List.map_congr_left
  intro l hl
  have hz : l.length ≠ 0 := fun hz => h l hl (List.eq_nil_of_length_eq_zero hz)
  omega

/-! ## Lemmas: concrete runs of the transposition brute-forcer

On the ciphertext `THHEM` with key length 3, one iteration and one restart,
the inner hill-climb accepts its single candidate through the first disjunct
of the acceptance test (`new_score > current_score`), so the run never draws
`rng.random()` and never consults `math.exp` — the outcome is a function of
the `shuffle`/`sample` outcomes alone. -/

theorem sum_map_cast_mul (l : List (List Char)) (f : List Char → Nat) :
    (l.map (fun x => ((f x : ℚ)) * 4)).sum = (((l.map f).sum : Nat) : ℚ) * 4 := by
  induction l with
  | nil => simp
  | cons x t ih =>
    simp only [List.map_cons, List.sum_cons, ih]
    push_cast
    ring

theorem score_THEHM : score_text_transposition ("THEHM".toList) = 24/25 := by
  simp only [score_text_transposition]
  rw [sum_map_cast_mul COMMON_WORDS_T (fun w => pyCount w (List.map pyUpper "THEHM".toList))]
  rw [show (COMMON_WORDS_T.map (fun w => pyCount w (List.map pyUpper "THEHM".toList))).sum = 1
    from by decide]
  rw [show (List.map pyUpper "THEHM".toList).countP (fun ch => ETAOIN.contains ch) = 4
    from by decide]
  rw [show (max 1 ("THEHM".toList).length) = 5 from by decide]
  norm_num

theorem score_THMHE : score_text_transposition ("THMHE".toList) = 4/25 := by
  simp only [score_text_transposition]
  rw [sum_map_cast_mul COMMON_WORDS_T (fun w => pyCount w (List.map pyUpper "THMHE".toList))]
  rw [show (COMMON_WORDS_T.map (fun w => pyCount w (List.map pyUpper "THMHE".toList))).sum = 0
    from by decide]
  rw [show (List.map pyUpper "THMHE".toList).countP (fun ch => ETAOIN.contains ch) = 4
    from by decide]
  rw [show (max 1 ("THMHE".toList).length) = 5 from by decide]
  norm_num

theorem hillclimbIter_eval (rexp : ℚ → ℚ) (rng : Rng) (nk : List Nat)
    (hswap : swapAt [0, 1, 2] (rng.sampleRes 0).1 (rng.sampleRes 0).2 = nk)
    (hcd : columnar_decrypt ("THHEM".toList) nk = "THEHM".toList) :
    hillclimbIter rexp rng ("THHEM".toList) 1
      ⟨[0, 1, 2], "THMHE".toList, 4/25, none, [], -(1000000000 : ℚ), 0, 0⟩ 0 =
    ⟨nk, "THEHM".toList, 24/25, some nk, "THEHM".toList, 24/25, 1, 0⟩ := by
  have hsc : score_text_transposition ("THEHM".toList) = 24/25 := score_THEHM
  simp only [hillclimbIter]
  rw [hswap, hcd, hsc]
  rw [if_pos (show (4/25 : ℚ) < 24/25 by norm_num)]
  simp only [if_true]
  rw [if_pos (show -(1000000000 : ℚ) < 24/25 by norm_num)]

theorem hillclimbRun_eval (rexp : ℚ → ℚ) (rng : Rng) (nk : List Nat)
    (hshuf : rng.shuffleRes 0 [0, 1, 2] = [0, 1, 2])
    (hswap : swapAt [0, 1, 2] (rng.sampleRes 0).1 (rng.sampleRes 0).2 = nk)
    (hcd : columnar_decrypt ("THHEM".toList) nk = "THEHM".toList) :
    hillclimbRun rexp rng ("THHEM".toList) 3 1 ⟨none, [], -(1000000000 : ℚ), 0, 0, 0⟩ =
      ⟨some nk, "THEHM".toList, 24/25, 1, 1, 0⟩ := by
  have hrk : random_key rng 0 3 = [0, 1, 2] := by
    unfold random_key
    rw [show List.range 3 = [0, 1, 2] from by decide]
    exact hshuf
  have hcd0 : columnar_decrypt ("THHEM".toList) [0, 1, 2] = "THMHE".toList := by decide
  have hsc0 : score_text_transposition ("THMHE".toList) = 4/25 := score_THMHE
  simp only [hillclimbRun]
  rw [hrk, hcd0, hsc0]
  rw [show List.range 1 = [0] from by decide]
  simp only [List.foldl_cons, List.foldl_nil]
  rw [hillclimbIter_eval rexp rng nk hswap hcd]

theorem hillclimb_transposition_eval (rexp : ℚ → ℚ) (rng : Rng) (nk : List Nat)
    (hshuf : rng.shuffleRes 0 [0, 1, 2] = [0, 1, 2])
    (hswap : swapAt [0, 1, 2] (rng.sampleRes 0).1 (rng.sampleRes 0).2 = nk)
    (hcd : columnar_decrypt ("THHEM".toList) nk = "THEHM".toList) :
    hillclimb_transposition rexp rng ("THHEM".toList) 3 1 1 =
      (some nk, "THEHM".toList, 24/25) := by
  simp only [hillclimb_transposition]
  rw [show List.range 1 = [0] from by decide]
  simp only [List.foldl_cons, List.foldl_nil]
  rw [hillclimbRun_eval rexp rng nk hshuf hswap hcd]

theorem brute_force_lengths_eval (rexp : ℚ → ℚ) (rng : Rng) (nk : List Nat)
    (hshuf : rng.shuffleRes 0 [0, 1, 2] = [0, 1, 2])
    (hswap : swapAt [0, 1, 2] (rng.sampleRes 0).1 (rng.sampleRes 0).2 = nk)
    (hcd : columnar_decrypt ("THHEM".toList) nk = "THEHM".toList) :
    brute_force_lengths rexp (fun _ => rng) ("THHEM".toList) 3 3 1 1 =
      (some 3, some nk, "THEHM".toList, 24/25) := by
  have hclean : clean ("THHEM".toList) = "THHEM".toList := by decide
  simp only [brute_force_lengths]
  rw [hclean]
  rw [show List.range' 3 (3 + 1 - 3) = [3] from by decide]
  simp only [List.foldl_cons, List.foldl_nil]
  rw [hillclimb_transposition_eval rexp rng nk hshuf hswap hcd]
  rw [if_pos (show -(1000000000 : ℚ) < 24/25 by norm_num)]

/-! ## Claim theorems -/

/-- C1 (counterexample): the round trip does not hold for every accepted key
set.  Construction accepts the substitution key `0123456789ABCDEFGHIJKLMNOP`
(26 distinct characters), yet encrypting the plaintext `J` and decrypting the
resulting ciphertext hits a missing entry of `reverse_substitution_map`
(a Python `KeyError`, modelled as `none`) instead of returning `clean "J"`. -/
theorem mlcc_roundtrip_counterexample :
    mkMLCCipher ("0123456789ABCDEFGHIJKLMNOP".toList) ("KEYKEYKEYK".toList) [3, 1, 2]
      = Except.ok ⟨"0123456789ABCDEFGHIJKLMNOP".toList, "KEYKEYKEYK".toList, [3, 1, 2]⟩ ∧
    ((⟨"0123456789ABCDEFGHIJKLMNOP".toList, "KEYKEYKEYK".toList, [3, 1, 2]⟩ :
        MLCCipher).encrypt ("J".toList)).bind
      (fun r => MLCCipher.decrypt
        ⟨"0123456789ABCDEFGHIJKLMNOP".toList, "KEYKEYKEYK".toList, [3, 1, 2]⟩ r.ciphertext)
      ≠ some (clean ("J".toList)) := by
  constructor
  · decide
  · decide

/-- C1 (amended): for keys accepted by construction whose substitution key
consists of letters with case-insensitively distinct values, decrypting the
ciphertext field of `encrypt plaintext` returns `clean plaintext`. -/
theorem mlcc_roundtrip (s v : List Char) (t : List Int) (m : MLCCipher)
    (pt : List Char)
    (hm : mkMLCCipher s v t = Except.ok m)
    (halpha : ∀ c ∈ s, pyIsAlpha c)
    (hnd : (s.map pyUpper).Nodup) :
    (m.encrypt pt).bind (fun r => m.decrypt r.ciphertext) = some (clean pt) := by
  apply mlcc_roundtrip_core s v t m pt hm ?_ hnd
  intro c hc
  rw [List.mem_map] at hc
  obtain ⟨a, ha, rfl⟩ := hc
  exact pyUpper_upperAZ a (halpha a ha)

/-- Witness for the amended C1 at a concrete key set and plaintext. -/
theorem mlcc_roundtrip_witness :
    mkMLCCipher ("ZYXWVUTSRQPONMLKJIHGFEDCBA".toList) ("KEYKEYKEYK".toList) [3, 1, 2]
      = Except.ok ⟨"ZYXWVUTSRQPONMLKJIHGFEDCBA".toList, "KEYKEYKEYK".toList, [3, 1, 2]⟩ ∧
    (∀ c ∈ ("ZYXWVUTSRQPONMLKJIHGFEDCBA".toList), pyIsAlpha c) ∧
    ((("ZYXWVUTSRQPONMLKJIHGFEDCBA".toList).map pyUpper).Nodup) ∧
    ((⟨"ZYXWVUTSRQPONMLKJIHGFEDCBA".toList, "KEYKEYKEYK".toList, [3, 1, 2]⟩ :
        MLCCipher).encrypt ("HELLOWORLD".toList)).bind
      (fun r => MLCCipher.decrypt
        ⟨"ZYXWVUTSRQPONMLKJIHGFEDCBA".toList, "KEYKEYKEYK".toList, [3, 1, 2]⟩ r.ciphertext)
      = some (clean ("HELLOWORLD".toList)) :=
  ⟨by decide, by decide, by decide,
    mlcc_roundtrip ("ZYXWVUTSRQPONMLKJIHGFEDCBA".toList) ("KEYKEYKEYK".toList) [3, 1, 2] _
      ("HELLOWORLD".toList) (by decide) (by decide) (by decide)⟩

/-- C2: for every transposition key with at least 3 entries and every string
(of any length, in particular divisible by, equal to, or smaller than the
column count), the decrypt-side short-column reconstruction exactly inverts
the encrypt-side zigzag fill and column-order read-out. -/
theorem transposition_roundtrip_claim (tk : List Int) (text : List Char)
    (hC : 3 ≤ tk.length) :
    transposition_decrypt tk (transposition_encrypt tk text) = text :=
  transposition_roundtrip tk text (by omega)

/-- Witness for C2 at a concrete key and text. -/
theorem transposition_roundtrip_claim_witness :
    3 ≤ ([3, 1, 2] : List Int).length ∧
    transposition_decrypt [3, 1, 2] (transposition_encrypt [3, 1, 2] ("HELLOWORLD".toList))
      = "HELLOWORLD".toList :=
  ⟨by decide, transposition_roundtrip_claim [3, 1, 2] ("HELLOWORLD".toList) (by decide)⟩

/-- C3 is false of the code: `columnar_decrypt` rebuilds the grid row-major
(plain columnar transposition) and is not the inverse of the pipeline's
zigzag transposition.  For the pre-transposition text `ABCDE` and key
`[1, 2, 3]` (column order `[0, 1, 2]`), the pipeline's transposition gives
`ABECD`, which `columnar_decrypt` turns into `AEDBC`, not `ABCDE`. -/
theorem columnar_decrypt_not_zigzag_inverse :
    transposition_encrypt [1, 2, 3] ("ABCDE".toList) = "ABECD".toList ∧
    column_order [1, 2, 3] = [0, 1, 2] ∧
    columnar_decrypt ("ABECD".toList) [0, 1, 2] = "AEDBC".toList ∧
    columnar_decrypt (transposition_encrypt [1, 2, 3] ("ABCDE".toList)) (column_order [1, 2, 3])
      ≠ "ABCDE".toList := by
  refine ⟨by decide, by decide, by decide, by decide⟩

/-- C4: the pipeline's incrementally maintained effective key index
`(i + key_rotation) % K` equals the recoverer's closed form
`(i + i / 5) % K` at every position. -/
theorem effective_index_equiv (i K : Nat) (hK : 1 ≤ K) :
    (i + key_rotation_at K i) % K = pos_to_key_index i K :=
  effective_index_closed K i

/-- Witness for C4 at `i = 7`, `K = 3`. -/
theorem effective_index_equiv_witness :
    1 ≤ 3 ∧ (7 + key_rotation_at 3 7) % 3 = pos_to_key_index 7 3 :=
  ⟨by decide, effective_index_equiv 7 3 (by decide)⟩

/-- C5: soundness of the Vigenere key recovery.  If `vigenere_result` was
produced from `substituted` by the modified Vigenere encryption with an
uppercase key of length `L`, the recoverer at trial length `L` reports the
length feasible and every position's candidate set contains the true key's
numeric shift there. -/
theorem vigenere_recovery_sound (key substituted : List Char) (L maxc : Nat)
    (hL : key.length = L) (hL1 : 1 ≤ L)
    (hkeyAZ : ∀ c ∈ key, isUpperAZ c)
    (hsubAZ : ∀ c ∈ substituted, isUpperAZ c) :
    ∃ res,
      derive_candidates_for_keylen substituted (vigenere_encrypt key substituted) L maxc
        = some res ∧
      ∀ p, p < L → (key.getD p 'A').toNat - 65 ∈ res.per_position_candidates.getD p [] :=
  derive_candidates_sound_core key substituted L maxc hL hL1 hkeyAZ hsubAZ

/-- Witness for C5 with key `B` and substituted text `A`. -/
theorem vigenere_recovery_sound_witness :
    ("B".toList).length = 1 ∧ 1 ≤ 1 ∧ (∀ c ∈ ("B".toList), isUpperAZ c) ∧
    (∀ c ∈ ("A".toList), isUpperAZ c) ∧
    ∃ res,
      derive_candidates_for_keylen ("A".toList) (vigenere_encrypt ("B".toList) ("A".toList))
        1 200 = some res ∧
      ∀ p, p < 1 → (("B".toList).getD p 'A').toNat - 65 ∈ res.per_position_candidates.getD p [] :=
  ⟨by decide, by decide, by decide, by decide,
    vigenere_recovery_sound ("B".toList) ("A".toList) 1 200 (by decide) (by decide)
      (by decide) (by decide)⟩

/-- C6 is false for the transposition solver: `brute_force_lengths` takes no
seed and calls `hillclimb_transposition` without one, so each call draws a
generator from ambient OS entropy.  Two possible generator outcome streams
(`rngA`, `rngB`) give different results on identical inputs, whatever
function the floating `math.exp` is — so repeated runs need not agree. -/
theorem brute_force_lengths_seedless_nondeterminism :
    ∀ rexp : ℚ → ℚ,
      brute_force_lengths rexp (fun _ => rngA) ("THHEM".toList) 3 3 1 1 ≠
        brute_force_lengths rexp (fun _ => rngB) ("THHEM".toList) 3 3 1 1 := by
  intro rexp
  rw [brute_force_lengths_eval rexp rngA [0, 2, 1] (by decide) (by decide) (by decide)]
  rw [brute_force_lengths_eval rexp rngB [2, 1, 0] (by decide) (by decide) (by decide)]
  intro habs
  have hkeys := congrArg (fun p => p.2.1) habs
  exact absurd hkeys (by decide)

/-- C7 (counterexample): `derive_candidates_for_keylen` performs no length
check — on inputs of different lengths it silently works on the prefix of
the longer string and can return a result.  With `substituted = "A"` and
`vigenere_result = "AB"` it returns a result at trial length 1. -/
theorem derive_ignores_length_mismatch :
    ("A".toList).length ≠ ("AB".toList).length ∧
    derive_candidates_for_keylen ("A".toList) ("AB".toList) 1 200
      = some ⟨1, [[0]], some [([0], ['A'])], 1⟩ := by
  constructor
  · decide
  · decide

/-- C7 (amended): the length-mismatch precondition is enforced only by
`main`, which rejects misaligned inputs with an error before any per-length
recovery runs. -/
theorem vigenere_cracker_main_mismatch (sub_raw vig_raw : List Char)
    (min_keylen max_keylen max_enumerate : Nat)
    (h : ((sub_raw.map pyUpper).filter pyIsAlpha).length ≠
      ((vig_raw.map pyUpper).filter pyIsAlpha).length) :
    vigenere_cracker_main sub_raw vig_raw min_keylen max_keylen max_enumerate
      = Except.error "Length mismatch after cleaning or alignment" := by
  unfold vigenere_cracker_main
  rw [if_pos h]

/-- Witness for the amended C7 on the same mismatched pair. -/
theorem vigenere_cracker_main_mismatch_witness :
    ((("A".toList).map pyUpper).filter pyIsAlpha).length ≠
      ((("AB".toList).map pyUpper).filter pyIsAlpha).length ∧
    vigenere_cracker_main ("A".toList) ("AB".toList) 3 20 200
      = Except.error "Length mismatch after cleaning or alignment" :=
  ⟨by decide, vigenere_cracker_main_mismatch ("A".toList) ("AB".toList) 3 20 200 (by decide)⟩

/-- C8: construction fails with an invalid-key error exactly when the
substitution key is not 26 distinct symbols, or the Vigenere key is shorter
than 10, or the transposition key has fewer than 3 elements; on failure no
`MLCCipher` value (hence no transform capability) is produced. -/
theorem mkMLCCipher_invalid_iff (s v : List Char) (t : List Int) :
    (∃ e, mkMLCCipher s v t = Except.error e) ↔
      (¬(s.length = 26 ∧ s.Nodup) ∨ v.length < 10 ∨ t.length < 3) :=
  mkMLCCipher_error_iff s v t

/-- C9: in `derive_candidates_for_keylen`, when every per-position candidate
set is non-empty, `enumerated_keys` is `None` exactly when the product of the
candidate-set sizes exceeds `max_combinations`; otherwise it is exactly the
Cartesian product of the per-position candidate lists, each combination
paired with its key-letter string. -/
theorem derive_enumeration_spec (substituted vigenere_result : List Char)
    (keylen maxc : Nat) (res : VigResult)
    (hres : derive_candidates_for_keylen substituted vigenere_result keylen maxc = some res)
    (hne : ∀ l ∈ res.per_position_candidates, l ≠ []) :
    (res.enumerated_keys = none ↔
      maxc < (res.per_position_candidates.map List.length).prod) ∧
    (res.enumerated_keys ≠ none →
      res.enumerated_keys = some ((listProd res.per_position_candidates).map
        (fun combo => (combo, combo.map INV_ALPHABET_MAP)))) := by
  unfold derive_candidates_for_keylen at hres
  cases hloop : deriveLoop substituted vigenere_result keylen 0 substituted.length
      (List.replicate keylen (List.range 26)) with
  | none =>
    rw [hloop] at hres
    exact absurd hres (by simp)
  | some cands =>
    rw [hloop] at hres
    simp only [] at hres
    by_cases h0 : totalCombLoop maxc cands 1 = 0
    · rw [if_pos h0] at hres
      exact absurd hres (by simp)
    · rw [if_neg h0] at hres
      by_cases hcap : totalCombLoop maxc cands 1 ≤ maxc
      · rw [if_pos hcap] at hres
        injection hres with hres
        subst hres
        have htot := totalCombLoop_eq_of_le maxc cands 1 hcap
        rw [map_max1_of_ne_nil cands hne, one_mul] at htot
        refine ⟨⟨fun habs => absurd habs (by simp), fun hgt => ?_⟩, fun _ => rfl⟩
        exfalso
        simp only [] at hgt
        omega
      · rw [if_neg hcap] at hres
        injection hres with hres
        subst hres
        have hgt' : maxc < totalCombLoop maxc cands 1 := by omega
        rw [totalCombLoop_gt_iff] at hgt'
        rw [map_max1_of_ne_nil cands hne, one_mul] at hgt'
        refine ⟨⟨fun _ => hgt', fun _ => rfl⟩, fun hne2 => absurd rfl hne2⟩

/-- Witness for C9 on `substituted = "AB"`, `vigenere_result = "BD"`,
key length 2, cap 200. -/
theorem derive_enumeration_spec_witness :
    derive_candidates_for_keylen ("AB".toList) ("BD".toList) 2 200
      = some ⟨2, [[1], [1, 14]], some [([1, 1], ['B', 'B']), ([1, 14], ['B', 'O'])], 2⟩ ∧
    (∀ l ∈ ([[1], [1, 14]] : List (List Nat)), l ≠ []) ∧
    ((some [([1, 1], ['B', 'B']), ([1, 14], ['B', 'O'])] :
        Option (List (List Nat × List Char))) = none ↔
      200 < (([[1], [1, 14]] : List (List Nat)).map List.length).prod) ∧
    ((some [([1, 1], ['B', 'B']), ([1, 14], ['B', 'O'])] :
        Option (List (List Nat × List Char))) ≠ none →
      (some [([1, 1], ['B', 'B']), ([1, 14], ['B', 'O'])] :
        Option (List (List Nat × List Char))) = some ((listProd [[1], [1, 14]]).map
        (fun combo => (combo, combo.map INV_ALPHABET_MAP)))) :=
  ⟨by decide, by decide,
    derive_enumeration_spec ("AB".toList) ("BD".toList) 2 200
      ⟨2, [[1], [1, 14]], some [([1, 1], ['B', 'B']), ([1, 14], ['B', 'O'])], 2⟩
      (by decide) (by decide)⟩

/-- C10 (implicit): construction checks distinctness before uppercasing, so
it accepts a key containing both `a` and `A`; the stored uppercased key then
has fewer than 26 distinct characters, the reverse substitution map loses
entries, and decrypt fails (`KeyError`, modelled as `none`) on a ciphertext
that encrypt itself produced. -/
theorem construction_accepts_case_sensitive_key :
    ∃ m, mkMLCCipher ("aA0123456789BCDEFGHIJKLMNO".toList) ("KEYKEYKEYK".toList) [3, 1, 2]
        = Except.ok m ∧
      m.substitution_key.dedup.length < 26 ∧
      (m.encrypt ("I".toList)).isSome = true ∧
      (m.encrypt ("I".toList)).bind (fun r => m.decrypt r.ciphertext) = none :=
  ⟨⟨"AA0123456789BCDEFGHIJKLMNO".toList, "KEYKEYKEYK".toList, [3, 1, 2]⟩,
    by decide, by decide, by decide, by decide⟩

end MLCC
